import Mathlib

/-! KaiOS STF agent: framing, dispatch and connection loop of `jni/main.cc`.

A shallow embedding of `recv_message`, `send_message`, `process_message`,
`receive_data`, `manage_connexion` and the accept loop of `main`, together with the
parts of the protobuf C++ runtime they call (`CodedInputStream`, `CodedOutputStream`,
`FileInputStream`, the generated `stf::Envelope` methods).

Conventions.
* An octet is a natural number below 256 (`Byte`); `uint32`/`int` values are naturals or
  integers with the reduction modulo `2^32` written out where the C++ truncates.
* The peer's transmission is finite: it ends with an orderly close or with a receive
  error.  A peer that stays silent for ever (the agent then blocks for ever) is outside
  the model.
* `CodedInputStream::total_bytes_limit_` is at `INT_MAX`, the library default, so that it
  coincides with the initial `current_limit_`.
* Logging (`log`, `perror`, `DebugString`) has no effect on the protocol and is left out.
-/

namespace STFAgent

/-- An octet on the wire. -/
abbrev Byte := Nat

/-- The constant `INT_MAX` of a 32-bit `int`. -/
def INT_MAX : Nat := 2147483647

/-- Conversion of a `uint32` bit pattern to `int` (two's complement). -/
def toInt32 (u : Nat) : Int :=
  if u % 4294967296 < 2147483648 then ((u % 4294967296 : Nat) : Int)
  else ((u % 4294967296 : Nat) : Int) - 4294967296

/-! ## The connected socket -/

/-- How the peer's transmission ends once every byte has been read: `recv`/`read`
return `0` after an orderly close and `-1` after a receive error. -/
inductive RxEnd where
  | closed
  | error
  deriving DecidableEq, Repr

/-- One burst of bytes from the peer; a stream socket never delivers an empty one. -/
structure Segment where
  head : Byte
  tail : List Byte
  deriving DecidableEq, Repr

/-- The bytes of a burst. -/
def Segment.bytes (g : Segment) : List Byte := g.head :: g.tail

/-- The connected stream socket as the agent sees it.
`avail` is the kernel receive queue; `later` are the bursts that arrive afterwards, each
one at a moment when the agent waits on an empty queue (bytes arriving while the queue
is non-empty are simply part of the same burst, since every read takes a prefix of the
queue); `rxEnd` is what follows the last byte; `selectBudget` is the number of
`select` calls that succeed before one fails (`none`: `select` never fails); `sent`
collects what has been written to the peer. -/
structure Socket where
  avail : List Byte
  later : List Segment
  rxEnd : RxEnd
  selectBudget : Option Nat
  sent : List Byte
  deriving DecidableEq, Repr

/-- Blocking until the socket is readable: with an empty queue the next burst arrives. -/
def Socket.arrive (s : Socket) : Socket :=
  match s.avail, s.later with
  | [], g :: gs => { s with avail := g.bytes, later := gs }
  | _, _ => s

/-- Every byte the peer still delivers on this socket, in order. -/
def Socket.stream (s : Socket) : List Byte :=
  s.avail ++ (s.later.map Segment.bytes).flatten

/-- The call `read(fd, buf, n)` on the blocking socket: result, bytes copied, socket. -/
def Socket.read (s : Socket) (n : Nat) : Int × List Byte × Socket :=
  let s1 := s.arrive
  match s1.avail with
  | [] => ((match s1.rxEnd with | RxEnd.closed => 0 | RxEnd.error => -1), [], s1)
  | b :: bs =>
    (((b :: bs).take n).length, (b :: bs).take n, { s1 with avail := (b :: bs).drop n })

/-- The call `recv(fd, buf, n, MSG_PEEK)`: the byte count, nothing is consumed. -/
def Socket.recv_peek (s : Socket) (n : Nat) : Int × Socket :=
  let s1 := s.arrive
  match s1.avail with
  | [] => ((match s1.rxEnd with | RxEnd.closed => 0 | RxEnd.error => -1), s1)
  | b :: bs => (((b :: bs).take n).length, s1)

/-- The call `select(fd + 1, &rsd, NULL, NULL, 0)`: blocks until the socket is readable
(data, close and error all make it readable) and returns 1, or fails with -1. -/
def Socket.select (s : Socket) : Int × Socket :=
  match s.selectBudget with
  | some 0 => (-1, s)
  | some (k + 1) => (1, { s.arrive with selectBudget := some k })
  | none => (1, s.arrive)

/-- The call `write(fd, data, len)` of `FileOutputStream::Flush`. -/
def Socket.write (s : Socket) (data : List Byte) : Socket :=
  { s with sent := s.sent ++ data }

/-! ## `FileInputStream` and `CodedInputStream` -/

/-- The block size of `FileInputStream` (`CopyingInputStreamAdaptor`). -/
def kDefaultBlockSize : Nat := 8192

/-- A `google::protobuf::io::FileInputStream` on a descriptor: the descriptor's socket
and the bytes handed back to the stream by `BackUp`, which the next `Next` returns
again.  These bytes have left the socket and live in this object only. -/
structure FileInputStream where
  file : Socket
  backup : List Byte
  deriving DecidableEq, Repr

/-- The constructor `FileInputStream(int file_descriptor)`. -/
def FileInputStream.new (socket : Socket) : FileInputStream :=
  { file := socket, backup := [] }

/-- `FileInputStream::Next`: the backed-up bytes if there are any, otherwise one `read`
of up to `kDefaultBlockSize` bytes; `none` at end of stream or on error. -/
def FileInputStream.Next (f : FileInputStream) : Option (List Byte) × FileInputStream :=
  match f.backup with
  | b :: bs => (some (b :: bs), { f with backup := [] })
  | [] =>
    match f.file.read kDefaultBlockSize with
    | (_, [], s1) => (none, { f with file := s1 })
    | (_, b :: bs, s1) => (some (b :: bs), { f with file := s1 })

/-- `FileInputStream::BackUp`, as the destructor of `CodedInputStream` calls it with all
the bytes it has not consumed. -/
def FileInputStream.BackUp (f : FileInputStream) (unread : List Byte) : FileInputStream :=
  { f with backup := unread ++ f.backup }

/-- Every byte a reader of this stream still obtains, in order. -/
def FileInputStream.stream (f : FileInputStream) : List Byte :=
  f.backup ++ f.file.stream

/-- The state of a `google::protobuf::io::CodedInputStream`.
`input` is the underlying `FileInputStream`, or `none` when the stream reads a flat
array; `buffer` holds the bytes obtained from `input` and not yet consumed;
`pos` is `CurrentPosition()`; `current_limit` is `current_limit_`. -/
structure CodedInputStream where
  input : Option FileInputStream
  buffer : List Byte
  pos : Nat
  current_limit : Nat
  legitimate_message_end : Bool
  last_tag : Nat
  recursion_budget : Nat
  deriving DecidableEq, Repr

/-- The default of `CodedInputStream::recursion_limit_`. -/
def default_recursion_limit : Nat := 100

/-- `CodedInputStream::Refresh`, called with an empty buffer: stops at the limit,
otherwise asks the underlying stream for its next block. -/
def CodedInputStream.Refresh (c : CodedInputStream) : CodedInputStream :=
  if c.current_limit ≤ c.pos then c
  else
    match c.input with
    | none => c
    | some f =>
      match f.Next with
      | (some blk, f1) => { c with input := some f1, buffer := blk }
      | (none, f1) => { c with input := some f1 }

/-- The constructor `CodedInputStream(ZeroCopyInputStream*)`; it refreshes eagerly. -/
def CodedInputStream.ofStream (rawInput : FileInputStream) : CodedInputStream :=
  CodedInputStream.Refresh
    { input := some rawInput, buffer := [], pos := 0, current_limit := INT_MAX,
      legitimate_message_end := false, last_tag := 0,
      recursion_budget := default_recursion_limit }

/-- The constructor `CodedInputStream(const uint8*, int)` over a flat array. -/
def CodedInputStream.ofArray (data : List Byte) : CodedInputStream :=
  { input := none, buffer := data, pos := 0, current_limit := INT_MAX,
    legitimate_message_end := false, last_tag := 0,
    recursion_budget := default_recursion_limit }

/-- Consuming one byte, the step shared by `ReadVarint32`, `ReadVarint64`, `ReadRaw`
and `ReadString`: fails at the current limit; refreshes when the buffer is empty and
fails if that yields nothing. -/
def CodedInputStream.ReadByte (c : CodedInputStream) : Option Byte × CodedInputStream :=
  if c.current_limit ≤ c.pos then (none, c)
  else
    match c.buffer with
    | b :: bs => (some b, { c with buffer := bs, pos := c.pos + 1 })
    | [] =>
      let c1 := c.Refresh
      match c1.buffer with
      | b :: bs => (some b, { c1 with buffer := bs, pos := c1.pos + 1 })
      | [] => (none, c1)

/-- The loop of `ReadVarint64Slow`: at most `n` more bytes, each contributing its low
seven bits at weight `mul`, until a byte without the continuation bit. -/
def readVarintLoop : Nat → Nat → Nat → CodedInputStream → Option Nat × CodedInputStream
  | 0, _, _, c => (none, c)
  | n + 1, mul, acc, c =>
    match c.ReadByte with
    | (none, c1) => (none, c1)
    | (some b, c1) =>
      if 128 ≤ b then readVarintLoop n (mul * 128) (acc + (b % 128) * mul) c1
      else (some (acc + (b % 128) * mul), c1)

/-- The maximum length of a varint, `kMaxVarintBytes`. -/
def kMaxVarintBytes : Nat := 10

/-- `CodedInputStream::ReadVarint64`. -/
def CodedInputStream.ReadVarint64 (c : CodedInputStream) : Option Nat × CodedInputStream :=
  match readVarintLoop kMaxVarintBytes 1 0 c with
  | (some v, c1) => (some (v % 18446744073709551616), c1)
  | (none, c1) => (none, c1)

/-- `CodedInputStream::ReadVarint32`: up to ten bytes are accepted, the value is
truncated to 32 bits. -/
def CodedInputStream.ReadVarint32 (c : CodedInputStream) : Option Nat × CodedInputStream :=
  match readVarintLoop kMaxVarintBytes 1 0 c with
  | (some v, c1) => (some (v % 4294967296), c1)
  | (none, c1) => (none, c1)

/-- Reading `n` raw bytes (`ReadRaw`, `ReadString`, `Skip`): fails at the limit or at the
end of the stream. -/
def CodedInputStream.ReadRaw : Nat → CodedInputStream → Option (List Byte) × CodedInputStream
  | 0, c => (some [], c)
  | n + 1, c =>
    match c.ReadByte with
    | (none, c1) => (none, c1)
    | (some b, c1) =>
      match CodedInputStream.ReadRaw n c1 with
      | (none, c2) => (none, c2)
      | (some bs, c2) => (some (b :: bs), c2)

/-- `CodedInputStream::ReadTag`: returns 0 and records a legitimate end of message when
no byte is left before the limit or the end of the stream; returns 0 as well when the
varint is malformed. -/
def CodedInputStream.ReadTag (c : CodedInputStream) : Nat × CodedInputStream :=
  if c.current_limit ≤ c.pos then (0, { c with legitimate_message_end := true, last_tag := 0 })
  else
    let c1 := match c.buffer with
      | [] => c.Refresh
      | _ :: _ => c
    match c1.buffer with
    | [] => (0, { c1 with legitimate_message_end := true, last_tag := 0 })
    | _ :: _ =>
      match c1.ReadVarint32 with
      | (some t, c2) => (t, { c2 with last_tag := t })
      | (none, c2) => (0, { c2 with last_tag := 0 })

/-- `CodedInputStream::PushLimit(int byte_limit)`: a negative or overflowing limit is
ignored, and a limit already in force is never extended. -/
def CodedInputStream.PushLimit (c : CodedInputStream) (byte_limit : Int) : CodedInputStream :=
  if 0 ≤ byte_limit ∧ byte_limit ≤ (INT_MAX : Int) - (c.pos : Int) then
    { c with current_limit := min (c.pos + byte_limit.toNat) c.current_limit }
  else c

/-- `CodedInputStream::ConsumedEntireMessage`. -/
def CodedInputStream.ConsumedEntireMessage (c : CodedInputStream) : Bool :=
  c.legitimate_message_end

/-- The destructor of `CodedInputStream`: the unconsumed bytes go back to the underlying
stream, which is what remains of the reader. -/
def CodedInputStream.destroy (c : CodedInputStream) (rawInput : FileInputStream) :
    FileInputStream :=
  match c.input with
  | some f => f.BackUp c.buffer
  | none => rawInput

/-- `CodedInputStream::PopLimit`. -/
def CodedInputStream.PopLimit (c : CodedInputStream) (limit : Nat) : CodedInputStream :=
  { c with current_limit := limit, legitimate_message_end := false }

/-- `CodedInputStream::LastTagWas`. -/
def CodedInputStream.LastTagWas (c : CodedInputStream) (expected : Nat) : Bool :=
  c.last_tag == expected

/-! ## `WireFormatLite::SkipField` and `SkipMessage` -/

/-- Wire type of a tag, `WireFormatLite::GetTagWireType`. -/
def GetTagWireType (tag : Nat) : Nat := tag % 8

/-- Field number of a tag, `WireFormatLite::GetTagFieldNumber`. -/
def GetTagFieldNumber (tag : Nat) : Nat := tag / 8

/-- `WireFormatLite::MakeTag`. -/
def MakeTag (field_number wire_type : Nat) : Nat := field_number * 8 + wire_type

/-- The body of `WireFormatLite::SkipField(input, tag)`: consumes the value of an unknown
field.  `skipMessage` is the call of `SkipMessage` made for a group. -/
def skipFieldWith (skipMessage : CodedInputStream → Option Bool × CodedInputStream)
    (tag : Nat) (c : CodedInputStream) : Option Bool × CodedInputStream :=
  if GetTagFieldNumber tag = 0 then (some false, c)
  else if GetTagWireType tag = 0 then
    match c.ReadVarint64 with
    | (some _, c1) => (some true, c1)
    | (none, c1) => (some false, c1)
  else if GetTagWireType tag = 1 then
    match c.ReadRaw 8 with
    | (some _, c1) => (some true, c1)
    | (none, c1) => (some false, c1)
  else if GetTagWireType tag = 2 then
    match c.ReadVarint32 with
    | (none, c1) => (some false, c1)
    | (some length, c1) =>
      if toInt32 length < 0 then (some false, c1)
      else
        match c1.ReadRaw length with
        | (some _, c2) => (some true, c2)
        | (none, c2) => (some false, c2)
  else if GetTagWireType tag = 3 then
    if c.recursion_budget = 0 then (some false, c)
    else
      match skipMessage { c with recursion_budget := c.recursion_budget - 1 } with
      | (none, c1) => (none, c1)
      | (some false, c1) => (some false, c1)
      | (some true, c1) =>
        (some (c1.LastTagWas (MakeTag (GetTagFieldNumber tag) 4)),
          { c1 with recursion_budget := c1.recursion_budget + 1 })
  else if GetTagWireType tag = 5 then
    match c.ReadRaw 4 with
    | (some _, c1) => (some true, c1)
    | (none, c1) => (some false, c1)
  else (some false, c)

/-- `WireFormatLite::SkipMessage(input)`: skips fields up to the end of the input or to
an end-group tag.  The first argument bounds the number of tags read, nested groups
included; `none` is returned when it is used up (see `SkipMessage_ok`), `some b` is
the C++ result. -/
def SkipMessage : Nat → CodedInputStream → Option Bool × CodedInputStream
  | 0, c => (none, c)
  | fuel + 1, c =>
    match c.ReadTag with
    | (tag, c1) =>
      if tag = 0 then (some true, c1)
      else if GetTagWireType tag = 4 then (some true, c1)
      else
        match skipFieldWith (SkipMessage fuel) tag c1 with
        | (some true, c2) => SkipMessage fuel c2
        | r => r

/-- `WireFormatLite::SkipField(input, tag)`. -/
def SkipField (fuel : Nat) (tag : Nat) (c : CodedInputStream) :
    Option Bool × CodedInputStream :=
  skipFieldWith (SkipMessage fuel) tag c

/-! ## `CodedOutputStream` -/

/-- The loop of `CodedOutputStream::WriteVarint32`/`WriteVarint64`: while the value is
at least `0x80`, emit its low seven bits with the continuation bit and shift; then emit
the rest.  The first argument is the number of shifts the operand width allows. -/
def writeVarintLoop : Nat → Nat → List Byte
  | 0, v => [v]
  | n + 1, v => if v < 128 then [v] else (v % 128 + 128) :: writeVarintLoop n (v / 128)

/-- `CodedOutputStream::WriteVarint32` (operand of type `uint32`). -/
def WriteVarint32 (value : Nat) : List Byte := writeVarintLoop 4 (value % 4294967296)

/-- `CodedOutputStream::WriteVarint64` (operand of type `uint64`). -/
def WriteVarint64 (value : Nat) : List Byte :=
  writeVarintLoop 9 (value % 18446744073709551616)

/-- `CodedOutputStream::WriteVarint32SignExtended` (operand of type `int`). -/
def WriteVarint32SignExtended (value : Int) : List Byte :=
  if value < 0 then WriteVarint64 (value + 18446744073709551616).toNat
  else WriteVarint32 value.toNat

/-- `CodedOutputStream::VarintSize32`. -/
def VarintSize32 (value : Nat) : Nat :=
  if value % 4294967296 < 128 then 1
  else if value % 4294967296 < 16384 then 2
  else if value % 4294967296 < 2097152 then 3
  else if value % 4294967296 < 268435456 then 4
  else 5

/-- `CodedOutputStream::VarintSize32SignExtended`. -/
def VarintSize32SignExtended (value : Int) : Nat :=
  if value < 0 then 10 else VarintSize32 value.toNat

/-! ## The generated messages of `wire.pb.h` -/

/-- Modelled from the spec: the declarations of `wire.pb.h` (generated from the wire
schema) that `main.cc` relies on and that the sources do not contain.  The spec names an
integer enumeration of message kinds with the display query as one defined value, and
does not say which Envelope fields are required: the numeric value of `GET_DISPLAY`, the
validity predicate `MessageType_IsValid`, the enumeration's default and the required
flags are therefore left open.  Enumerators are non-negative 32-bit integers. -/
structure WireSchema where
  GET_DISPLAY : Nat
  MessageType_IsValid : Nat → Bool
  MessageType_default : Nat
  type_required : Bool
  message_required : Bool
  success_required : Bool
  get_display_valid : MessageType_IsValid GET_DISPLAY = true
  valid_lt : ∀ v, MessageType_IsValid v = true → v < 2147483648

/-- Modelled from the spec: `stf::Envelope`, with the fields the spec lists, numbered 1,
2, 3 in that order (`id` of type `uint32`, `type` an enumeration, `message` of type
`bytes`).  Each member carries its has-bit: `none` is an unset field. -/
structure Envelope where
  id_ : Option Nat
  type_ : Option Nat
  message_ : Option (List Byte)
  deriving DecidableEq, Repr

/-- Modelled from the spec: the default constructor `stf::Envelope()` of the absent
`wire.pb.h`; no field is set. -/
def Envelope.new : Envelope := { id_ := none, type_ := none, message_ := none }

/-- Modelled from the spec: the accessor `Envelope::id()` of the absent `wire.pb.h`; an
unset field reads as 0. -/
def Envelope.id (e : Envelope) : Nat := e.id_.getD 0

/-- Modelled from the spec: the accessor `Envelope::type()` of the absent `wire.pb.h`; an
unset field reads as the enumeration's default. -/
def Envelope.type (W : WireSchema) (e : Envelope) : Nat := e.type_.getD W.MessageType_default

/-- Modelled from the spec: the accessor `Envelope::message()` of the absent `wire.pb.h`;
an unset field reads as the empty string. -/
def Envelope.message (e : Envelope) : List Byte := e.message_.getD []

/-- Modelled from the spec: `Envelope::set_id` of the absent `wire.pb.h`. -/
def Envelope.set_id (e : Envelope) (v : Nat) : Envelope := { e with id_ := some v }

/-- Modelled from the spec: `Envelope::set_type` of the absent `wire.pb.h`. -/
def Envelope.set_type (e : Envelope) (v : Nat) : Envelope := { e with type_ := some v }

/-- Modelled from the spec: `Envelope::set_message` of the absent `wire.pb.h`. -/
def Envelope.set_message (e : Envelope) (v : List Byte) : Envelope := { e with message_ := some v }

/-- Modelled from the spec: `Envelope::IsInitialized` of the absent generated code; the
required fields are set. -/
def Envelope.IsInitialized (W : WireSchema) (e : Envelope) : Bool :=
  (!W.type_required || e.type_.isSome) && (!W.message_required || e.message_.isSome)

/-- Modelled from the spec: `Envelope::SerializeWithCachedSizes` of the absent generated
code.  The spec leaves the encoding of an Envelope to the schema library, whose wire
format this is: the set fields in field-number order, each as its tag followed by its
value (a varint, or a varint length and the bytes). -/
def Envelope.SerializeWithCachedSizes (e : Envelope) : List Byte :=
  (match e.id_ with
    | some v => WriteVarint32 8 ++ WriteVarint32 v
    | none => []) ++
  (match e.type_ with
    | some v => WriteVarint32 16 ++ WriteVarint32SignExtended (v : Int)
    | none => []) ++
  (match e.message_ with
    | some m => WriteVarint32 26 ++ WriteVarint32 m.length ++ m
    | none => [])

/-- Modelled from the spec: `Envelope::ByteSize` of the absent generated code; one tag
byte per set field plus the size of its value. -/
def Envelope.ByteSize (e : Envelope) : Nat :=
  (match e.id_ with
    | some v => 1 + VarintSize32 v
    | none => 0) +
  (match e.type_ with
    | some v => 1 + VarintSize32SignExtended (v : Int)
    | none => 0) +
  (match e.message_ with
    | some m => 1 + VarintSize32 m.length + m.length
    | none => 0)

/-- Modelled from the spec: the loop of `Envelope::MergePartialFromCodedStream` of the
absent generated code, the decoder for the wire format of `SerializeWithCachedSizes`:
it reads a tag, stores the value of a known field (an enumerator that is not defined is
dropped), skips an unknown field, and stops at tag 0.  The first argument bounds the number of iterations; `none` is returned when it is used up (see
`Envelope.mergeLoop_fuel`), `some b` is the C++ result. -/
def Envelope.mergeLoop (W : WireSchema) :
    Nat → Envelope → CodedInputStream → Option Bool × Envelope × CodedInputStream
  | 0, e, c => (none, e, c)
  | fuel + 1, e, c =>
    match c.ReadTag with
    | (tag, c1) =>
      if tag = 8 then
        match c1.ReadVarint32 with
        | (some v, c2) => Envelope.mergeLoop W fuel { e with id_ := some v } c2
        | (none, c2) => (some false, e, c2)
      else if tag = 16 then
        match c1.ReadVarint32 with
        | (some value, c2) =>
          if W.MessageType_IsValid value then
            Envelope.mergeLoop W fuel { e with type_ := some value } c2
          else Envelope.mergeLoop W fuel e c2
        | (none, c2) => (some false, e, c2)
      else if tag = 26 then
        match c1.ReadVarint32 with
        | (none, c2) => (some false, e, c2)
        | (some length, c2) =>
          if toInt32 length < 0 then (some false, e, c2)
          else
            match c2.ReadRaw length with
            | (some m, c3) => Envelope.mergeLoop W fuel { e with message_ := some m } c3
            | (none, c3) => (some false, e, c3)
      else if tag = 0 then (some true, e, c1)
      else
        match SkipField fuel tag c1 with
        | (some true, c2) => Envelope.mergeLoop W fuel e c2
        | (r, c2) => (r, e, c2)

/-- The number of bytes a stream may still deliver before its limit, plus one: a bound
on the iterations of a parsing loop, each of which consumes a byte. -/
def CodedInputStream.fuel (c : CodedInputStream) : Nat := c.current_limit - c.pos + 1

/-- Modelled from the spec: `Envelope::MergePartialFromCodedStream` of the absent
generated code. -/
def Envelope.MergePartialFromCodedStream (W : WireSchema) (e : Envelope)
    (c : CodedInputStream) : Bool × Envelope × CodedInputStream :=
  match Envelope.mergeLoop W c.fuel e c with
  | (some b, e1, c1) => (b, e1, c1)
  | (none, e1, c1) => (false, e1, c1)

/-- `MessageLite::MergeFromCodedStream`: the partial merge, then the check that the
required fields are present. -/
def Envelope.MergeFromCodedStream (W : WireSchema) (e : Envelope)
    (c : CodedInputStream) : Bool × Envelope × CodedInputStream :=
  match Envelope.MergePartialFromCodedStream W e c with
  | (false, e1, c1) => (false, e1, c1)
  | (true, e1, c1) => (Envelope.IsInitialized W e1, e1, c1)

/-- Modelled from the spec: `stf::GetDisplayResponse`, with the fields the spec lists,
numbered 1 to 9 in that order: `success` and `secure` are booleans, the others 32-bit
integers.  `none` is an unset field. -/
structure GetDisplayResponse where
  success_ : Option Bool
  width_ : Option Int
  height_ : Option Int
  secure_ : Option Bool
  xdpi_ : Option Int
  ydpi_ : Option Int
  fps_ : Option Int
  rotation_ : Option Int
  density_ : Option Int
  deriving DecidableEq, Repr

/-- Modelled from the spec: the default constructor `stf::GetDisplayResponse()` of the
absent `wire.pb.h`. -/
def GetDisplayResponse.new : GetDisplayResponse :=
  { success_ := none, width_ := none, height_ := none, secure_ := none, xdpi_ := none,
    ydpi_ := none, fps_ := none, rotation_ := none, density_ := none }

/-- `WireFormatLite::WriteBool` for field `n`. -/
def WriteBool (n : Nat) (v : Option Bool) : List Byte :=
  match v with
  | some b => WriteVarint32 (MakeTag n 0) ++ [if b then 1 else 0]
  | none => []

/-- `WireFormatLite::WriteInt32` for field `n`. -/
def WriteInt32 (n : Nat) (v : Option Int) : List Byte :=
  match v with
  | some i => WriteVarint32 (MakeTag n 0) ++ WriteVarint32SignExtended i
  | none => []

/-- Modelled from the spec: `GetDisplayResponse::SerializeToString` of the absent
generated code; the set fields in field-number order. -/
def GetDisplayResponse.SerializeToString (r : GetDisplayResponse) : List Byte :=
  WriteBool 1 r.success_ ++ WriteInt32 2 r.width_ ++ WriteInt32 3 r.height_ ++
  WriteBool 4 r.secure_ ++ WriteInt32 5 r.xdpi_ ++ WriteInt32 6 r.ydpi_ ++
  WriteInt32 7 r.fps_ ++ WriteInt32 8 r.rotation_ ++ WriteInt32 9 r.density_

/-- Modelled from the spec: storing a decoded boolean field (1 or 4) of
`GetDisplayResponse`. -/
def GetDisplayResponse.setBool (r : GetDisplayResponse) (n : Nat) (b : Bool) :
    GetDisplayResponse :=
  if n = 1 then { r with success_ := some b } else { r with secure_ := some b }

/-- Modelled from the spec: storing a decoded integer field (2, 3, 5 to 9) of
`GetDisplayResponse`. -/
def GetDisplayResponse.setInt (r : GetDisplayResponse) (n : Nat) (i : Int) :
    GetDisplayResponse :=
  if n = 2 then { r with width_ := some i }
  else if n = 3 then { r with height_ := some i }
  else if n = 5 then { r with xdpi_ := some i }
  else if n = 6 then { r with ydpi_ := some i }
  else if n = 7 then { r with fps_ := some i }
  else if n = 8 then { r with rotation_ := some i }
  else { r with density_ := some i }

/-- Modelled from the spec: the loop of `GetDisplayResponse::MergePartialFromCodedStream`
of the absent generated code; the first argument bounds the number of iterations as in `Envelope.mergeLoop`. -/
def GetDisplayResponse.mergeLoop :
    Nat → GetDisplayResponse → CodedInputStream →
      Option Bool × GetDisplayResponse × CodedInputStream
  | 0, r, c => (none, r, c)
  | fuel + 1, r, c =>
    match c.ReadTag with
    | (tag, c1) =>
      if tag = 8 ∨ tag = 32 then
        match c1.ReadVarint64 with
        | (some v, c2) =>
          GetDisplayResponse.mergeLoop fuel (r.setBool (GetTagFieldNumber tag) (v != 0)) c2
        | (none, c2) => (some false, r, c2)
      else if tag = 16 ∨ tag = 24 ∨ tag = 40 ∨ tag = 48 ∨ tag = 56 ∨ tag = 64 ∨ tag = 72 then
        match c1.ReadVarint32 with
        | (some v, c2) =>
          GetDisplayResponse.mergeLoop fuel (r.setInt (GetTagFieldNumber tag) (toInt32 v)) c2
        | (none, c2) => (some false, r, c2)
      else if tag = 0 then (some true, r, c1)
      else
        match SkipField fuel tag c1 with
        | (some true, c2) => GetDisplayResponse.mergeLoop fuel r c2
        | (x, c2) => (x, r, c2)

/-- Modelled from the spec: `GetDisplayResponse::ParseFromString` of the absent generated
code, by which a peer decodes the payload: merge from the flat array, check the
required field, and check that the whole array was consumed. -/
def GetDisplayResponse.ParseFromString (W : WireSchema) (data : List Byte) :
    Option GetDisplayResponse :=
  match GetDisplayResponse.mergeLoop (data.length + 1) GetDisplayResponse.new
      (CodedInputStream.ofArray data) with
  | (some true, r, c) =>
    if (!W.success_required || r.success_.isSome) && c.ConsumedEntireMessage then some r
    else none
  | _ => none

/-! ## `jni/main.cc` -/

/-- A `google::protobuf::io::FileOutputStream`: the bytes written to it and not yet
flushed to the descriptor. -/
structure FileOutputStream where
  buffer : List Byte
  deriving DecidableEq, Repr

/-- The constructor `FileOutputStream(int file_descriptor)`. -/
def FileOutputStream.new : FileOutputStream := { buffer := [] }

/-- `FileOutputStream::Flush` on the descriptor of `socket`. -/
def FileOutputStream.Flush (os : FileOutputStream) (socket : Socket) :
    FileOutputStream × Socket :=
  ({ buffer := [] }, socket.write os.buffer)

/-- The function `recv_message` of `main.cc`: the result, the message, and the input
stream as the destroyed `CodedInputStream` leaves it. -/
def recv_message (W : WireSchema) (rawInput : FileInputStream) (message : Envelope) :
    Bool × Envelope × FileInputStream :=
  let input := CodedInputStream.ofStream rawInput
  match input.ReadVarint32 with
  | (none, input1) => (false, message, input1.destroy rawInput)
  | (some size, input1) =>
    let limit := input1.current_limit
    let input2 := input1.PushLimit (toInt32 size)
    match Envelope.MergeFromCodedStream W message input2 with
    | (false, message1, input3) => (false, message1, input3.destroy rawInput)
    | (true, message1, input3) =>
      if !input3.ConsumedEntireMessage then (false, message1, input3.destroy rawInput)
      else (true, message1, (input3.PopLimit limit).destroy rawInput)

/-- The function `send_message` of `main.cc`: the varint of `ByteSize()`, then the
serialised envelope, appended to the output stream. -/
def send_message (envelope : Envelope) (coded_output : FileOutputStream) : FileOutputStream :=
  let size : Int := (envelope.ByteSize : Int)
  { buffer := coded_output.buffer ++ WriteVarint32 size.toNat ++ envelope.SerializeWithCachedSizes }

/-- The hardcoded display description built by `process_message`. -/
def display_response : GetDisplayResponse :=
  { success_ := some true, width_ := some 240, height_ := some 320, secure_ := some false,
    xdpi_ := some 240, ydpi_ := some 320, fps_ := some 2, rotation_ := some 0,
    density_ := some 280 }

/-- The function `process_message` of `main.cc`. -/
def process_message (W : WireSchema) (request : Envelope) : Envelope :=
  let response := Envelope.new
  if request.type W = W.GET_DISPLAY then
    let response := response.set_id request.id
    let response := response.set_type W.GET_DISPLAY
    let data := display_response.SerializeToString
    response.set_message data
  else response

/-- The function `receive_data` of `main.cc`: its return value and the socket
afterwards.  The two stream objects are allocated afresh and never used again. -/
def receive_data (W : WireSchema) (socket : Socket) : Int × Socket :=
  match socket.recv_peek 512 with
  | (bytecount, socket0) =>
    let is := FileInputStream.new socket0
    let os := FileOutputStream.new
    if bytecount > 0 then
      match recv_message W is Envelope.new with
      | (true, input_msg, is1) =>
        let socket1 := is1.file
        let output_msg := process_message W input_msg
        if output_msg.ByteSize > 0 then
          let os1 := send_message output_msg os
          (1, (os1.Flush socket1).2)
        else (1, socket1)
      | (false, _, is1) => (1, is1.file)
    else (-1, socket0)

/-- The `while (connected)` loop of `manage_connexion`.  The first argument bounds the
number of iterations; `none` is returned when it is used up (see
`manage_connexion_loop_fuel`), otherwise the socket as the loop leaves it. -/
def manage_connexion_loop (W : WireSchema) : Nat → Socket → Option Socket
  | 0, _ => none
  | fuel + 1, socket =>
    match socket.select with
    | (numReady, socket1) =>
      if numReady > 0 then
        match receive_data W socket1 with
        | (r, socket2) =>
          if r = -1 then some socket2 else manage_connexion_loop W fuel socket2
      else some socket1

/-- The function `manage_connexion` of `main.cc`, on the socket of its handler.  Every
iteration that does not end the loop consumes a byte of the peer's transmission, which
bounds the number of iterations. -/
def manage_connexion (W : WireSchema) (handler : Socket) : Socket :=
  match manage_connexion_loop W (handler.stream.length + 1) handler with
  | some s => s
  | none => handler

/-- What the accept loop of `main` does, in order. -/
inductive Event where
  | accept (result : Option Socket)
  | manage_call (handler : Socket)
  | manage_return (handler : Socket)
  deriving DecidableEq, Repr

/-- The `while (true)` loop of `main`, run over the outcomes of its successive `accept`
calls (`none`: the call returned -1). -/
def accept_loop (W : WireSchema) : List (Option Socket) → List Event
  | [] => []
  | none :: rest => Event.accept none :: accept_loop W rest
  | some client_sock :: rest =>
    Event.accept (some client_sock) :: Event.manage_call client_sock ::
      Event.manage_return (manage_connexion W client_sock) :: accept_loop W rest

/-- The function `main` of `main.cc`: its exit code when it exits, and what it did.
`agent_sock` is the result of `create_socket`, `listening` the result of `listen`. -/
def main (W : WireSchema) (agent_sock listening : Int) (accepts : List (Option Socket)) :
    Option Nat × List Event :=
  if agent_sock = -1 then (some 1, [])
  else if listening = -1 then (some 1, [])
  else (none, accept_loop W accepts)

/-! ## A concrete schema and sample traffic -/

/-- Modelled from the spec: a concrete instance of the absent declarations, for worked
examples.  It takes the values of the STF wire schema: `GET_DISPLAY = 19`, enumerators
1 to 31 with default 1, `type` and `message` required in the Envelope and `success` in
the display response. -/
def stfWire : WireSchema :=
  { GET_DISPLAY := 19
    MessageType_IsValid := fun v => decide (1 ≤ v ∧ v ≤ 31)
    MessageType_default := 1
    type_required := true
    message_required := true
    success_required := true
    get_display_valid := by decide
    valid_lt := by
      intro v hv
      have h := of_decide_eq_true hv
      omega }

/-- A socket on which `bytes` have arrived in one burst, followed by what `later` and
`rxEnd` say. -/
def Socket.ofBurst (bytes : List Byte) (later : List Segment) (rxEnd : RxEnd) : Socket :=
  { avail := bytes, later := later, rxEnd := rxEnd, selectBudget := none, sent := [] }

/-- The outcome of an `accept`, for the steps that are one. -/
def Event.acceptResult : Event → Option (Option Socket)
  | Event.accept r => some r
  | _ => none

/-- The outcomes of the `accept` calls of a trace, in order. -/
def acceptResults (trace : List Event) : List (Option Socket) :=
  trace.filterMap Event.acceptResult

/-- Whether a step is an `accept` call. -/
def Event.isAccept : Event → Bool
  | Event.accept _ => true
  | _ => false

/-- The number of Connections that exist after a trace, in the specification's words: a
Connection is created on (successful) accept and destroyed when its state machine
reaches `CLOSED`, that is when `manage_connexion` returns. -/
def openConnections : List Event → Int
  | [] => 0
  | Event.accept (some _) :: rest => 1 + openConnections rest
  | Event.manage_return _ :: rest => -1 + openConnections rest
  | _ :: rest => openConnections rest

/-- The order of the Listener's steps in the specification's words: the loop starts
with an accept; a failed accept is followed by another accept; an accepted connection
is handed at once to the Connection Manager, that very connection; the Connection
Manager runs it to completion; and then the next step is an accept. -/
def allowedAfter (W : WireSchema) : Option Event → Event → Bool
  | none, Event.accept _ => true
  | some (Event.accept none), Event.accept _ => true
  | some (Event.accept (some s)), Event.manage_call h => decide (h = s)
  | some (Event.manage_call s), Event.manage_return h => decide (h = manage_connexion W s)
  | some (Event.manage_return _), Event.accept _ => true
  | _, _ => false

/-- Every step of a trace is allowed after the one before it, `prev` being the step
before the first. -/
def chained (W : WireSchema) : Option Event → List Event → Bool
  | _, [] => true
  | prev, e :: rest => allowedAfter W prev e && chained W (some e) rest

/-- The number of Connections that exist right after a step: one after a successful
accept and after the hand-off, none otherwise. -/
def openAfter : Option Event → Int
  | some (Event.accept (some _)) => 1
  | some (Event.manage_call _) => 1
  | _ => 0

/-- The step before the one that follows `pre`, when `prev` precedes `pre`. -/
def lastStep (prev : Option Event) (pre : List Event) : Option Event :=
  match pre.getLast? with
  | some e => some e
  | none => prev

/-! ## The varint of the specification -/

/-- The value of a varint as the specification words it: seven magnitude bits per byte,
least-significant group first. -/
def specVarintValue : List Byte → Nat
  | [] => 0
  | b :: bs => b % 128 + 128 * specVarintValue bs

/-- The framing of a varint as the specification words it: a non-empty sequence of
octets with the continuation bit set on every byte but the last. -/
def specVarintFraming : List Byte → Bool
  | [] => false
  | [b] => decide (b < 128)
  | b :: b1 :: bs => decide (128 ≤ b ∧ b < 256) && specVarintFraming (b1 :: bs)

/-! ## What a reader consumes -/

/-- Every byte a `CodedInputStream` can still obtain (ignoring its limit), in order. -/
def CodedInputStream.stream (c : CodedInputStream) : List Byte :=
  c.buffer ++ (match c.input with
    | some f => f.stream
    | none => [])

/-- What has been written to the socket under a `CodedInputStream`. -/
def CodedInputStream.sent (c : CodedInputStream) : List Byte :=
  match c.input with
  | some f => f.file.sent
  | none => []

/-- The number of bytes the socket under a `CodedInputStream` has yet to deliver. -/
def CodedInputStream.unread (c : CodedInputStream) : Nat :=
  match c.input with
  | some f => f.file.stream.length
  | none => 0

/-- The relation between the underlying streams of a `CodedInputStream` before and after
an operation: nothing is written, and the socket only loses bytes. -/
structure Under (c c1 : CodedInputStream) : Prop where
  input : c1.input.isSome = c.input.isSome
  sent : c1.sent = c.sent
  unread : c1.unread ≤ c.unread

/-- The relation between a `CodedInputStream` before and after an operation that
consumed the bytes `bs`. -/
structure Consumes (c : CodedInputStream) (bs : List Byte) (c1 : CodedInputStream) :
    Prop where
  stream : c.stream = bs ++ c1.stream
  pos : c1.pos = c.pos + bs.length
  limit : c1.current_limit = c.current_limit
  bound : c.pos ≤ c.current_limit → c1.pos ≤ c.current_limit
  legit : c1.legitimate_message_end = true →
    c.legitimate_message_end = true ∨ c.current_limit ≤ c1.pos ∨ c1.stream = []
  under : Under c c1

/-- An operation that consumed `bs` and touched neither the end-of-message flag nor the
recursion budget. -/
def Plain (c : CodedInputStream) (bs : List Byte) (c1 : CodedInputStream) : Prop :=
  Consumes c bs c1 ∧ c1.legitimate_message_end = c.legitimate_message_end ∧
    c1.recursion_budget = c.recursion_budget

/-- The two facts carried through every parsing loop: the loop only consumes, and with
more fuel than bytes before the limit it does not run out of fuel. -/
def LoopOk (fuel : Nat) (c : CodedInputStream) (r : Option Bool) (c1 : CodedInputStream) :
    Prop :=
  (∃ bs, Consumes c bs c1) ∧
    (c.pos ≤ c.current_limit → c.current_limit - c.pos < fuel → r ≠ none)

/-! ## Lemmas on the streams -/

theorem Under.same (c : CodedInputStream) : Under c c := ⟨rfl, rfl, Nat.le_refl _⟩

theorem Under.then_under {c c1 c2 : CodedInputStream} (h : Under c c1) (h1 : Under c1 c2) :
    Under c c2 :=
  ⟨h1.input.trans h.input, h1.sent.trans h.sent, Nat.le_trans h1.unread h.unread⟩

theorem Under.of_input_eq {c c1 c2 : CodedInputStream} (h : Under c c1)
    (e : c2.input = c1.input) : Under c c2 := by
  refine ⟨?_, ?_, ?_⟩
  · rw [e]; exact h.input
  · simp only [CodedInputStream.sent, e]; exact h.sent
  · simp only [CodedInputStream.unread, e]; exact h.unread

theorem Consumes.none_consumed (c : CodedInputStream) : Consumes c [] c :=
  ⟨by simp, by simp, rfl, fun h => h, fun h => Or.inl h, Under.same c⟩

theorem Consumes.then_consumes {c c1 c2 : CodedInputStream} {bs bs1 : List Byte}
    (h : Consumes c bs c1) (h1 : Consumes c1 bs1 c2) : Consumes c (bs ++ bs1) c2 := by
  refine ⟨?_, ?_, ?_, ?_, ?_, h.under.then_under h1.under⟩
  · rw [h.stream, h1.stream, List.append_assoc]
  · rw [h1.pos, h.pos, List.length_append, Nat.add_assoc]
  · rw [h1.limit, h.limit]
  · intro hb
    have := h1.bound (by rw [h.limit]; exact h.bound hb)
    rw [h.limit] at this
    exact this
  · intro hl
    rcases h1.legit hl with h2 | h2 | h2
    · rcases h.legit h2 with h3 | h3 | h3
      · exact Or.inl h3
      · right; left
        have := h1.pos
        omega
      · right; right
        have e := h1.stream
        rw [h3] at e
        cases hbs : bs1 with
        | nil => rw [hbs] at e; simpa using e.symm
        | cons x xs => rw [hbs] at e; simp at e
    · right; left
      rw [← h.limit]; exact h2
    · exact Or.inr (Or.inr h2)

theorem Socket.arrive_stream (s : Socket) : s.arrive.stream = s.stream := by
  unfold Socket.arrive Socket.stream
  split
  · next h1 h2 => simp [h1, h2]
  · rfl

theorem Socket.arrive_avail_nil (s : Socket) (h : s.arrive.avail = []) : s.stream = [] := by
  unfold Socket.arrive at h
  unfold Socket.stream
  cases ha : s.avail with
  | cons x xs => simp [ha] at h
  | nil =>
    cases hl : s.later with
    | nil => simp
    | cons g gs => simp [ha, hl, Segment.bytes] at h

theorem FileInputStream.Next_some {f f1 : FileInputStream} {blk : List Byte}
    (h : f.Next = (some blk, f1)) : blk ≠ [] ∧ blk ++ f1.stream = f.stream := by
  unfold FileInputStream.Next at h
  cases hb : f.backup with
  | cons b bs =>
    simp only [hb, Prod.mk.injEq, Option.some.injEq] at h
    obtain ⟨h1, h2⟩ := h
    subst h1 h2
    simp [FileInputStream.stream, hb]
  | nil =>
    simp only [hb, Socket.read] at h
    cases ha : f.file.arrive.avail with
    | nil => simp [ha] at h
    | cons x xs =>
      simp only [ha, kDefaultBlockSize, List.take_succ_cons] at h
      simp only [Prod.mk.injEq, Option.some.injEq] at h
      obtain ⟨h1, h2⟩ := h
      subst h1 h2
      refine ⟨by simp, ?_⟩
      have e := Socket.arrive_stream f.file
      simp only [FileInputStream.stream, hb, Socket.stream, ha, List.nil_append] at e ⊢
      rw [← e, ← List.append_assoc]
      congr 1
      exact List.take_append_drop 8192 (x :: xs)

theorem FileInputStream.Next_none {f f1 : FileInputStream}
    (h : f.Next = (none, f1)) : f.stream = [] ∧ f1.stream = [] := by
  unfold FileInputStream.Next at h
  cases hb : f.backup with
  | cons b bs => simp [hb] at h
  | nil =>
    simp only [hb, Socket.read] at h
    cases ha : f.file.arrive.avail with
    | cons x xs => simp [ha, kDefaultBlockSize] at h
    | nil =>
      simp only [ha, Prod.mk.injEq, true_and] at h
      subst h
      have e := Socket.arrive_avail_nil f.file ha
      have e1 := Socket.arrive_stream f.file
      simp [FileInputStream.stream, hb, e, e1]

theorem Socket.read_under (s : Socket) (n : Nat) :
    (s.read n).2.2.sent = s.sent ∧ (s.read n).2.2.stream.length ≤ s.stream.length := by
  have e := Socket.arrive_stream s
  have e1 : s.arrive.sent = s.sent := by
    unfold Socket.arrive
    split <;> rfl
  unfold Socket.read
  cases ha : s.arrive.avail with
  | nil => simp only [ha, e, e1, Nat.le_refl, and_self]
  | cons x xs =>
    simp only [ha, e1, true_and]
    rw [← e]
    simp only [Socket.stream, ha, List.length_append, List.length_drop, List.length_cons]
    omega

theorem FileInputStream.Next_under (f : FileInputStream) :
    f.Next.2.file.sent = f.file.sent ∧
    f.Next.2.file.stream.length ≤ f.file.stream.length := by
  unfold FileInputStream.Next
  cases hb : f.backup with
  | cons b bs => simp
  | nil =>
    have h := Socket.read_under f.file kDefaultBlockSize
    cases hr : f.file.read kDefaultBlockSize with
    | mk r p =>
      cases p with
      | mk bs s1 =>
        rw [hr] at h
        cases bs <;> exact h

/-- Refreshing an empty buffer keeps the stream and the position; if nothing comes, the
reader is at its limit or the stream is exhausted. -/
theorem CodedInputStream.Refresh_spec (c : CodedInputStream) (hb : c.buffer = []) :
    c.Refresh.stream = c.stream ∧ c.Refresh.pos = c.pos ∧
    c.Refresh.current_limit = c.current_limit ∧
    c.Refresh.legitimate_message_end = c.legitimate_message_end ∧
    c.Refresh.recursion_budget = c.recursion_budget ∧
    (c.Refresh.buffer = [] → c.current_limit ≤ c.pos ∨ c.stream = []) ∧
    Under c c.Refresh := by
  unfold CodedInputStream.Refresh
  by_cases hl : c.current_limit ≤ c.pos
  · simp only [hl, if_true, true_and]
    exact ⟨fun _ => Or.inl trivial, Under.same c⟩
  · simp only [hl, if_false]
    cases hi : c.input with
    | none =>
      simp only [true_and]
      refine ⟨?_, (Under.same c).of_input_eq rfl⟩
      simp [CodedInputStream.stream, hb, hi]
    | some f =>
      simp only
      have hu := FileInputStream.Next_under f
      cases hn : f.Next with
      | mk o f1 =>
        rw [hn] at hu
        have hund : ∀ c1 : CodedInputStream, c1.input = some f1 → Under c c1 := by
          intro c1 h1
          refine ⟨by rw [h1, hi]; rfl, ?_, ?_⟩
          · simp only [CodedInputStream.sent, h1, hi]; exact hu.1
          · simp only [CodedInputStream.unread, h1, hi]; exact hu.2
        cases o with
        | none =>
          have := FileInputStream.Next_none hn
          refine ⟨?_, rfl, rfl, rfl, rfl, ?_, hund _ rfl⟩
          · simp [CodedInputStream.stream, hb, hi, this]
          · intro _; right; simp [CodedInputStream.stream, hb, hi, this]
        | some blk =>
          have := FileInputStream.Next_some hn
          refine ⟨?_, rfl, rfl, rfl, rfl, ?_, hund _ rfl⟩
          · simp [CodedInputStream.stream, hb, hi, this]
          · intro h; exact absurd h this.1

theorem CodedInputStream.ReadByte_some {c c1 : CodedInputStream} {b : Byte}
    (h : c.ReadByte = (some b, c1)) :
    Consumes c [b] c1 ∧ c.pos < c.current_limit ∧
    c1.legitimate_message_end = c.legitimate_message_end ∧
    c1.recursion_budget = c.recursion_budget := by
  unfold CodedInputStream.ReadByte at h
  by_cases hl : c.current_limit ≤ c.pos
  · simp [hl] at h
  · simp only [hl, if_false] at h
    cases hb : c.buffer with
    | cons x xs =>
      simp only [hb, Prod.mk.injEq, Option.some.injEq] at h
      obtain ⟨h1, h2⟩ := h
      subst h1 h2
      refine ⟨⟨?_, rfl, rfl, ?_, fun h => Or.inl h, (Under.same c).of_input_eq rfl⟩,
        by omega, rfl, rfl⟩
      · simp [CodedInputStream.stream, hb]
      · intro _; simp only; omega
    | nil =>
      simp only [hb] at h
      obtain ⟨r1, r2, r3, r4, r5, _, r7⟩ := CodedInputStream.Refresh_spec c hb
      cases hb1 : c.Refresh.buffer with
      | nil => simp [hb1] at h
      | cons x xs =>
        simp only [hb1, Prod.mk.injEq, Option.some.injEq] at h
        obtain ⟨h1, h2⟩ := h
        subst h1 h2
        refine ⟨⟨?_, ?_, r3, ?_, ?_, r7.of_input_eq rfl⟩, by omega, r4, r5⟩
        · rw [← r1]; simp [CodedInputStream.stream, hb1]
        · simp [r2]
        · intro _; simp only [r2]; omega
        · intro h; left; simpa [r4] using h

theorem CodedInputStream.ReadByte_none {c c1 : CodedInputStream}
    (h : c.ReadByte = (none, c1)) :
    Consumes c [] c1 ∧ (c.current_limit ≤ c.pos ∨ c.stream = []) ∧
    c1.legitimate_message_end = c.legitimate_message_end ∧
    c1.recursion_budget = c.recursion_budget := by
  unfold CodedInputStream.ReadByte at h
  by_cases hl : c.current_limit ≤ c.pos
  · simp only [hl, if_true, Prod.mk.injEq, true_and] at h
    subst h
    exact ⟨Consumes.none_consumed c, Or.inl hl, rfl, rfl⟩
  · simp only [hl, if_false] at h
    cases hb : c.buffer with
    | cons x xs => simp [hb] at h
    | nil =>
      simp only [hb] at h
      obtain ⟨r1, r2, r3, r4, r5, r6, r7⟩ := CodedInputStream.Refresh_spec c hb
      cases hb1 : c.Refresh.buffer with
      | cons x xs => simp [hb1] at h
      | nil =>
        simp only [hb1, Prod.mk.injEq, true_and] at h
        subst h
        refine ⟨⟨by simp [r1], by simp [r2], r3, ?_, ?_, r7⟩, r6 hb1, r4, r5⟩
        · intro hh; rw [r2]; exact hh
        · intro hh; left; rw [← r4]; exact hh

/-- With a byte in the stream and room before the limit, `ReadByte` delivers it. -/
theorem CodedInputStream.ReadByte_ok {c : CodedInputStream} {b : Byte} {rest : List Byte}
    (hs : c.stream = b :: rest) (hl : c.pos < c.current_limit) :
    ∃ c1, c.ReadByte = (some b, c1) ∧ Consumes c [b] c1 ∧ c1.stream = rest := by
  cases h : c.ReadByte with
  | mk o c1 =>
    cases o with
    | none =>
      obtain ⟨_, h2, _⟩ := CodedInputStream.ReadByte_none h
      rcases h2 with h2 | h2
      · omega
      · rw [h2] at hs; cases hs
    | some x =>
      obtain ⟨h1, _⟩ := CodedInputStream.ReadByte_some h
      have e := h1.stream
      rw [hs] at e
      simp only [List.singleton_append, List.cons.injEq] at e
      obtain ⟨e1, e2⟩ := e
      subst e1
      exact ⟨c1, rfl, h1, e2.symm⟩

theorem Plain.none_read (c : CodedInputStream) : Plain c [] c := ⟨Consumes.none_consumed c, rfl, rfl⟩

theorem Plain.then_plain {c c1 c2 : CodedInputStream} {bs bs1 : List Byte}
    (h : Plain c bs c1) (h1 : Plain c1 bs1 c2) : Plain c (bs ++ bs1) c2 :=
  ⟨h.1.then_consumes h1.1, h1.2.1.trans h.2.1, h1.2.2.trans h.2.2⟩

theorem CodedInputStream.ReadByte_plain {c c1 : CodedInputStream} {o : Option Byte}
    (h : c.ReadByte = (o, c1)) :
    ∃ bs, Plain c bs c1 ∧ (o.isSome = true → bs ≠ []) := by
  cases o with
  | none =>
    obtain ⟨h1, _, h3, h4⟩ := CodedInputStream.ReadByte_none h
    exact ⟨[], ⟨h1, h3, h4⟩, by simp⟩
  | some b =>
    obtain ⟨h1, _, h3, h4⟩ := CodedInputStream.ReadByte_some h
    exact ⟨[b], ⟨h1, h3, h4⟩, by simp⟩

theorem readVarintLoop_plain (n : Nat) : ∀ (mul acc : Nat) (c c1 : CodedInputStream)
    (o : Option Nat), readVarintLoop n mul acc c = (o, c1) →
    ∃ bs, Plain c bs c1 ∧ (o.isSome = true → bs ≠ []) := by
  induction n with
  | zero =>
    intro mul acc c c1 o h
    simp only [readVarintLoop, Prod.mk.injEq] at h
    obtain ⟨h1, h2⟩ := h
    subst h1 h2
    exact ⟨[], Plain.none_read c, by simp⟩
  | succ n ih =>
    intro mul acc c c1 o h
    simp only [readVarintLoop] at h
    cases hb : c.ReadByte with
    | mk ob cb =>
      obtain ⟨bs, hp, hne⟩ := CodedInputStream.ReadByte_plain hb
      rw [hb] at h
      cases ob with
      | none =>
        simp only [Prod.mk.injEq] at h
        obtain ⟨h1, h2⟩ := h
        subst h1 h2
        exact ⟨bs, hp, by simp⟩
      | some b =>
        simp only at h
        split at h
        · obtain ⟨bs1, hp1, _⟩ := ih _ _ _ _ _ h
          refine ⟨bs ++ bs1, hp.then_plain hp1, fun _ => ?_⟩
          have := hne rfl
          simp [this]
        · simp only [Prod.mk.injEq] at h
          obtain ⟨h1, h2⟩ := h
          subst h1 h2
          exact ⟨bs, hp, fun _ => hne rfl⟩

theorem CodedInputStream.ReadVarint32_plain {c c1 : CodedInputStream} {o : Option Nat}
    (h : c.ReadVarint32 = (o, c1)) :
    ∃ bs, Plain c bs c1 ∧ (o.isSome = true → bs ≠ []) := by
  unfold CodedInputStream.ReadVarint32 at h
  cases hr : readVarintLoop kMaxVarintBytes 1 0 c with
  | mk o1 c2 =>
    obtain ⟨bs, hp, hne⟩ := readVarintLoop_plain _ _ _ _ _ _ hr
    rw [hr] at h
    cases o1 with
    | none =>
      simp only [Prod.mk.injEq] at h
      obtain ⟨h1, h2⟩ := h
      subst h1 h2
      exact ⟨bs, hp, by simp⟩
    | some v =>
      simp only [Prod.mk.injEq] at h
      obtain ⟨h1, h2⟩ := h
      subst h1 h2
      exact ⟨bs, hp, fun _ => hne rfl⟩

theorem CodedInputStream.ReadVarint64_plain {c c1 : CodedInputStream} {o : Option Nat}
    (h : c.ReadVarint64 = (o, c1)) :
    ∃ bs, Plain c bs c1 ∧ (o.isSome = true → bs ≠ []) := by
  unfold CodedInputStream.ReadVarint64 at h
  cases hr : readVarintLoop kMaxVarintBytes 1 0 c with
  | mk o1 c2 =>
    obtain ⟨bs, hp, hne⟩ := readVarintLoop_plain _ _ _ _ _ _ hr
    rw [hr] at h
    cases o1 with
    | none =>
      simp only [Prod.mk.injEq] at h
      obtain ⟨h1, h2⟩ := h
      subst h1 h2
      exact ⟨bs, hp, by simp⟩
    | some v =>
      simp only [Prod.mk.injEq] at h
      obtain ⟨h1, h2⟩ := h
      subst h1 h2
      exact ⟨bs, hp, fun _ => hne rfl⟩

theorem CodedInputStream.ReadRaw_plain (n : Nat) : ∀ (c c1 : CodedInputStream)
    (o : Option (List Byte)), CodedInputStream.ReadRaw n c = (o, c1) →
    ∃ bs, Plain c bs c1 ∧ (∀ m, o = some m → m = bs ∧ m.length = n) := by
  induction n with
  | zero =>
    intro c c1 o h
    simp only [CodedInputStream.ReadRaw, Prod.mk.injEq] at h
    obtain ⟨h1, h2⟩ := h
    subst h1 h2
    exact ⟨[], Plain.none_read c, by simp⟩
  | succ n ih =>
    intro c c1 o h
    simp only [CodedInputStream.ReadRaw] at h
    cases hb : c.ReadByte with
    | mk ob cb =>
      rw [hb] at h
      cases ob with
      | none =>
        obtain ⟨bs, hp, _⟩ := CodedInputStream.ReadByte_plain hb
        simp only [Prod.mk.injEq] at h
        obtain ⟨h1, h2⟩ := h
        subst h1 h2
        exact ⟨bs, hp, by simp⟩
      | some b =>
        obtain ⟨hc, _, hl, hr⟩ := CodedInputStream.ReadByte_some hb
        simp only at h
        cases hn : CodedInputStream.ReadRaw n cb with
        | mk o2 c2 =>
          obtain ⟨bs1, hp1, hm⟩ := ih _ _ _ hn
          rw [hn] at h
          cases o2 with
          | none =>
            simp only [Prod.mk.injEq] at h
            obtain ⟨h1, h2⟩ := h
            subst h1 h2
            exact ⟨[b] ++ bs1, Plain.then_plain ⟨hc, hl, hr⟩ hp1, by simp⟩
          | some m1 =>
            simp only [Prod.mk.injEq] at h
            obtain ⟨h1, h2⟩ := h
            subst h1 h2
            obtain ⟨e1, e2⟩ := hm m1 rfl
            refine ⟨[b] ++ bs1, Plain.then_plain ⟨hc, hl, hr⟩ hp1, ?_⟩
            intro m hm1
            simp only [Option.some.injEq] at hm1
            subst hm1
            simp [e1, ← e2]

/-- What `ReadTag` consumes: a non-zero tag costs at least one byte and leaves the
end-of-message flag alone. -/
theorem CodedInputStream.ReadTag_consumes {c c1 : CodedInputStream} {t : Nat}
    (h : c.ReadTag = (t, c1)) :
    ∃ bs, Consumes c bs c1 ∧ c1.recursion_budget = c.recursion_budget ∧
      (t ≠ 0 → bs ≠ [] ∧ c1.legitimate_message_end = c.legitimate_message_end) := by
  unfold CodedInputStream.ReadTag at h
  by_cases hl : c.current_limit ≤ c.pos
  · simp only [hl, if_true, Prod.mk.injEq] at h
    obtain ⟨h1, h2⟩ := h
    subst h1 h2
    exact ⟨[], ⟨by simp [CodedInputStream.stream], rfl, rfl, fun h => h,
      fun _ => Or.inr (Or.inl hl), (Under.same c).of_input_eq rfl⟩, rfl, by simp⟩
  · simp only [hl, if_false] at h
    have key : ∃ c0 : CodedInputStream, (match c.buffer with
        | [] => c.Refresh
        | _ :: _ => c) = c0 ∧ Plain c [] c0 ∧
        (c0.buffer = [] → c.current_limit ≤ c.pos ∨ c.stream = []) := by
      cases hb : c.buffer with
      | nil =>
        obtain ⟨r1, r2, r3, r4, r5, r6, r7⟩ := CodedInputStream.Refresh_spec c hb
        exact ⟨c.Refresh, rfl, ⟨⟨by simp [r1], by simp [r2], r3, fun hh => by rw [r2]; exact hh,
          fun hh => Or.inl (by rw [← r4]; exact hh), r7⟩, r4, r5⟩, r6⟩
      | cons x xs => exact ⟨c, rfl, Plain.none_read c, fun hh => by simp [hb] at hh⟩
    obtain ⟨c0, e0, hp0, hnil⟩ := key
    simp only [e0] at h
    cases hb0 : c0.buffer with
    | nil =>
      simp only [hb0, Prod.mk.injEq] at h
      obtain ⟨h1, h2⟩ := h
      subst h1 h2
      have hs : c.stream = [] := by
        rcases hnil hb0 with h3 | h3
        · exact absurd h3 hl
        · exact h3
      have hs0 : c0.stream = [] := by
        have := hp0.1.stream
        rw [hs] at this
        simpa using this.symm
      refine ⟨[], ⟨?_, ?_, hp0.1.limit, ?_, fun _ => Or.inr (Or.inr ?_), (hp0.1.under.of_input_eq rfl)⟩,
        hp0.2.2, by simp⟩
      · simpa [CodedInputStream.stream, hb0] using hp0.1.stream
      · simpa using hp0.1.pos
      · intro hh; simpa using hp0.1.bound hh
      · simpa [CodedInputStream.stream, hb0] using hs0
    | cons x xs =>
      simp only [hb0] at h
      cases hv : c0.ReadVarint32 with
      | mk o c2 =>
        obtain ⟨bs, hp, hne⟩ := CodedInputStream.ReadVarint32_plain hv
        have hp2 := hp0.then_plain hp
        rw [hv] at h
        cases o with
        | none =>
          simp only [Prod.mk.injEq] at h
          obtain ⟨h1, h2⟩ := h
          subst h1 h2
          refine ⟨[] ++ bs, ⟨?_, hp2.1.pos, hp2.1.limit, hp2.1.bound, ?_, (hp2.1.under.of_input_eq rfl)⟩,
            hp2.2.2, by simp⟩
          · simpa [CodedInputStream.stream] using hp2.1.stream
          · intro hh
            rcases hp2.1.legit hh with h3 | h3 | h3
            · exact Or.inl h3
            · exact Or.inr (Or.inl h3)
            · exact Or.inr (Or.inr (by simpa [CodedInputStream.stream] using h3))
        | some v =>
          simp only [Prod.mk.injEq] at h
          obtain ⟨h1, h2⟩ := h
          subst h1 h2
          refine ⟨[] ++ bs, ⟨?_, hp2.1.pos, hp2.1.limit, hp2.1.bound, ?_, (hp2.1.under.of_input_eq rfl)⟩,
            hp2.2.2, ?_⟩
          · simpa [CodedInputStream.stream] using hp2.1.stream
          · intro hh
            rcases hp2.1.legit hh with h3 | h3 | h3
            · exact Or.inl h3
            · exact Or.inr (Or.inl h3)
            · exact Or.inr (Or.inr (by simpa [CodedInputStream.stream] using h3))
          · intro _
            exact ⟨by simpa using hne rfl, hp2.2.1⟩

/-- At its limit `ReadTag` reports a legitimate end of message. -/
theorem CodedInputStream.ReadTag_at_limit (c : CodedInputStream)
    (h : c.current_limit ≤ c.pos) :
    c.ReadTag = (0, { c with legitimate_message_end := true, last_tag := 0 }) := by
  simp [CodedInputStream.ReadTag, h]

/-! ### Reading back what `CodedOutputStream` wrote -/

theorem writeVarintLoop_ne_nil (n v : Nat) : writeVarintLoop n v ≠ [] := by
  cases n with
  | zero => simp [writeVarintLoop]
  | succ n =>
    simp only [writeVarintLoop]
    split <;> simp

theorem readVarintLoop_write (n : Nat) : ∀ (v m mul acc : Nat) (c : CodedInputStream)
    (rest : List Byte), v < 128 ^ (n + 1) → n < m →
    c.stream = writeVarintLoop n v ++ rest →
    c.pos + (writeVarintLoop n v).length ≤ c.current_limit →
    ∃ c1, readVarintLoop m mul acc c = (some (acc + v * mul), c1) ∧
      Plain c (writeVarintLoop n v) c1 ∧ c1.stream = rest := by
  induction n with
  | zero =>
    intro v m mul acc c rest hv hm hs hl
    obtain ⟨m1, rfl⟩ : ∃ m1, m = m1 + 1 := ⟨m - 1, by omega⟩
    simp only [writeVarintLoop, List.singleton_append, List.length_singleton] at hs hl
    obtain ⟨c1, hr, hc, hst⟩ := CodedInputStream.ReadByte_ok hs (by omega)
    obtain ⟨_, _, h3, h4⟩ := CodedInputStream.ReadByte_some hr
    have hv1 : v < 128 := by simpa using hv
    refine ⟨c1, ?_, ⟨hc, h3, h4⟩, hst⟩
    simp only [readVarintLoop, hr, if_neg (show ¬ 128 ≤ v by omega), Nat.mod_eq_of_lt hv1]
  | succ n ih =>
    intro v m mul acc c rest hv hm hs hl
    obtain ⟨m1, rfl⟩ : ∃ m1, m = m1 + 1 := ⟨m - 1, by omega⟩
    simp only [writeVarintLoop] at hs hl ⊢
    by_cases hv1 : v < 128
    · simp only [hv1, if_true, List.singleton_append, List.length_singleton] at hs hl ⊢
      obtain ⟨c1, hr, hc, hst⟩ := CodedInputStream.ReadByte_ok hs (by omega)
      obtain ⟨_, _, h3, h4⟩ := CodedInputStream.ReadByte_some hr
      refine ⟨c1, ?_, ⟨hc, h3, h4⟩, hst⟩
      simp only [readVarintLoop, hr, if_neg (show ¬ 128 ≤ v by omega), Nat.mod_eq_of_lt hv1]
    · simp only [hv1, if_false, List.cons_append, List.length_cons] at hs hl ⊢
      obtain ⟨c1, hr, hc, hst⟩ := CodedInputStream.ReadByte_ok hs (by omega)
      obtain ⟨_, _, h3, h4⟩ := CodedInputStream.ReadByte_some hr
      have hdiv : v / 128 < 128 ^ (n + 1) := by
        rw [Nat.div_lt_iff_lt_mul (by norm_num)]
        calc v < 128 ^ (n + 1 + 1) := hv
          _ = 128 ^ (n + 1) * 128 := by ring
      have hpos := hc.pos
      have hlim := hc.limit
      simp only [List.length_singleton] at hpos
      obtain ⟨c2, hr2, hp2, hst2⟩ := ih (v / 128) m1 (mul * 128)
        (acc + ((v % 128 + 128) % 128) * mul) c1 rest hdiv (by omega) hst (by omega)
      refine ⟨c2, ?_, ?_, hst2⟩
      · simp only [readVarintLoop, hr, if_pos (show 128 ≤ v % 128 + 128 by omega), hr2]
        congr 2
        have e : (v % 128 + 128) % 128 = v % 128 := by omega
        rw [e]
        have e2 := Nat.div_add_mod v 128
        calc acc + v % 128 * mul + v / 128 * (mul * 128)
            = acc + (128 * (v / 128) + v % 128) * mul := by ring
          _ = acc + v * mul := by rw [e2]
      · have := Plain.then_plain (show Plain c [v % 128 + 128] c1 from ⟨hc, h3, h4⟩) hp2
        simpa using this

theorem CodedInputStream.ReadVarint32_write {c : CodedInputStream} {rest : List Byte}
    (v : Nat) (hs : c.stream = WriteVarint32 v ++ rest)
    (hl : c.pos + (WriteVarint32 v).length ≤ c.current_limit) :
    ∃ c1, c.ReadVarint32 = (some (v % 4294967296), c1) ∧
      Plain c (WriteVarint32 v) c1 ∧ c1.stream = rest := by
  unfold WriteVarint32 at hs hl ⊢
  have hv : v % 4294967296 < 128 ^ (4 + 1) := by
    have := Nat.mod_lt v (show 0 < 4294967296 by norm_num)
    calc v % 4294967296 < 4294967296 := this
      _ ≤ 128 ^ (4 + 1) := by norm_num
  obtain ⟨c1, hr, hp, hst⟩ := readVarintLoop_write 4 (v % 4294967296) kMaxVarintBytes 1 0 c
    rest hv (by decide) hs hl
  refine ⟨c1, ?_, hp, hst⟩
  unfold CodedInputStream.ReadVarint32
  rw [hr]
  simp

theorem CodedInputStream.ReadRaw_ok (m : List Byte) : ∀ (c : CodedInputStream)
    (rest : List Byte), c.stream = m ++ rest → c.pos + m.length ≤ c.current_limit →
    ∃ c1, CodedInputStream.ReadRaw m.length c = (some m, c1) ∧ Plain c m c1 ∧
      c1.stream = rest := by
  induction m with
  | nil =>
    intro c rest hs _
    exact ⟨c, rfl, Plain.none_read c, by simpa using hs⟩
  | cons b bs ih =>
    intro c rest hs hl
    simp only [List.cons_append, List.length_cons] at hs hl
    obtain ⟨c1, hr, hc, hst⟩ := CodedInputStream.ReadByte_ok hs (by omega)
    obtain ⟨_, _, h3, h4⟩ := CodedInputStream.ReadByte_some hr
    have hpos := hc.pos
    have hlim := hc.limit
    simp only [List.length_singleton] at hpos
    obtain ⟨c2, hr2, hp2, hst2⟩ := ih c1 rest hst (by omega)
    refine ⟨c2, ?_, ?_, hst2⟩
    · simp only [List.length_cons, CodedInputStream.ReadRaw, hr, hr2]
    · have := Plain.then_plain (show Plain c [b] c1 from ⟨hc, h3, h4⟩) hp2
      simpa using this

/-- `ReadTag` on a tag written by `WriteVarint32`. -/
theorem CodedInputStream.ReadTag_write {c : CodedInputStream} {rest : List Byte}
    (t : Nat) (hs : c.stream = WriteVarint32 t ++ rest)
    (hl : c.pos + (WriteVarint32 t).length ≤ c.current_limit) :
    ∃ c1, c.ReadTag = (t % 4294967296, c1) ∧ Consumes c (WriteVarint32 t) c1 ∧
      c1.stream = rest := by
  have hne : WriteVarint32 t ≠ [] := writeVarintLoop_ne_nil _ _
  have hlen : 0 < (WriteVarint32 t).length := List.length_pos.mpr hne
  have hlt : ¬ c.current_limit ≤ c.pos := by omega
  have hsne : c.stream ≠ [] := by
    rw [hs]; simp [hne]
  have key : ∃ c0 : CodedInputStream, (match c.buffer with
      | [] => c.Refresh
      | _ :: _ => c) = c0 ∧ Plain c [] c0 ∧ c0.buffer ≠ [] := by
    cases hb : c.buffer with
    | nil =>
      obtain ⟨r1, r2, r3, r4, r5, r6, r7⟩ := CodedInputStream.Refresh_spec c hb
      refine ⟨c.Refresh, rfl, ⟨⟨by simp [r1], by simp [r2], r3,
        fun hh => by rw [r2]; exact hh, fun hh => Or.inl (by rw [← r4]; exact hh), r7⟩,
        r4, r5⟩, ?_⟩
      intro hh
      rcases r6 hh with h3 | h3
      · exact hlt h3
      · exact hsne h3
    | cons x xs => exact ⟨c, rfl, Plain.none_read c, by simp [hb]⟩
  obtain ⟨c0, e0, hp0, hb0⟩ := key
  have hs0 : c0.stream = WriteVarint32 t ++ rest := by
    have := hp0.1.stream
    simp only [List.nil_append] at this
    rw [← this]; exact hs
  have hpos0 : c0.pos = c.pos := by simpa using hp0.1.pos
  obtain ⟨c1, hr, hp, hst⟩ := CodedInputStream.ReadVarint32_write t hs0
    (by rw [hpos0, hp0.1.limit]; exact hl)
  have hp2 := hp0.then_plain hp
  refine ⟨{ c1 with last_tag := t % 4294967296 }, ?_, ?_, ?_⟩
  · unfold CodedInputStream.ReadTag
    simp only [hlt, if_false, e0]
    cases hb1 : c0.buffer with
    | nil => exact absurd hb1 hb0
    | cons x xs => simp only [hr]
  · refine ⟨?_, hp2.1.pos, hp2.1.limit, hp2.1.bound, ?_, (hp2.1.under.of_input_eq rfl)⟩
    · simpa [CodedInputStream.stream] using hp2.1.stream
    · intro hh
      rcases hp2.1.legit hh with h3 | h3 | h3
      · exact Or.inl h3
      · exact Or.inr (Or.inl h3)
      · exact Or.inr (Or.inr (by simpa [CodedInputStream.stream] using h3))
  · simpa [CodedInputStream.stream] using hst

/-! ### Sizes -/

theorem WriteVarint32_length (v : Nat) : (WriteVarint32 v).length = VarintSize32 v := by
  unfold WriteVarint32 VarintSize32
  generalize v % 4294967296 = u
  simp only [writeVarintLoop]
  split_ifs <;> simp <;> omega

theorem WriteVarint32SignExtended_natCast (v : Nat) :
    WriteVarint32SignExtended (v : Int) = WriteVarint32 v := by
  unfold WriteVarint32SignExtended
  rw [if_neg (by omega : ¬ (v : Int) < 0)]
  simp

theorem VarintSize32SignExtended_natCast (v : Nat) :
    VarintSize32SignExtended (v : Int) = VarintSize32 v := by
  unfold VarintSize32SignExtended
  rw [if_neg (by omega : ¬ (v : Int) < 0)]
  simp

theorem WriteVarint32_small (v : Nat) (h : v < 128) : WriteVarint32 v = [v] := by
  unfold WriteVarint32
  rw [Nat.mod_eq_of_lt (by omega)]
  simp [writeVarintLoop, h]

/-- `ByteSize()` is the number of bytes `SerializeWithCachedSizes` writes. -/
theorem Envelope.ByteSize_eq (e : Envelope) :
    e.SerializeWithCachedSizes.length = e.ByteSize := by
  unfold Envelope.SerializeWithCachedSizes Envelope.ByteSize
  cases e.id_ <;> cases e.type_ <;> cases e.message_ <;>
    simp [WriteVarint32_length, WriteVarint32SignExtended_natCast,
      VarintSize32SignExtended_natCast, WriteVarint32_small] <;> omega

/-! ### The parsing loop on a serialised envelope -/

theorem Envelope.mergeLoop_id (W : WireSchema) (fuel : Nat) (e : Envelope)
    (c : CodedInputStream) (v : Nat) (rest : List Byte)
    (hs : c.stream = WriteVarint32 8 ++ (WriteVarint32 v ++ rest))
    (hl : c.pos + (1 + (WriteVarint32 v).length) ≤ c.current_limit) :
    ∃ c2, Envelope.mergeLoop W (fuel + 1) e c =
        Envelope.mergeLoop W fuel { e with id_ := some (v % 4294967296) } c2 ∧
      c2.stream = rest ∧ c2.pos = c.pos + (1 + (WriteVarint32 v).length) ∧
      c2.current_limit = c.current_limit ∧ c2.input.isSome = c.input.isSome := by
  have h8 : (WriteVarint32 8).length = 1 := by decide
  obtain ⟨c1, hr, hc, hst⟩ := CodedInputStream.ReadTag_write 8 hs (by omega)
  have hp1 := hc.pos
  have hl1 := hc.limit
  obtain ⟨c2, hr2, hp2, hst2⟩ := CodedInputStream.ReadVarint32_write v hst (by omega)
  refine ⟨c2, ?_, hst2, ?_, ?_, ?_⟩
  · rw [Envelope.mergeLoop, hr]
    simp only [show 8 % 4294967296 = 8 from rfl, if_true, hr2]
  · have := hp2.1.pos; omega
  · have := hp2.1.limit; omega
  · exact hp2.1.under.input.trans hc.under.input

theorem Envelope.mergeLoop_type (W : WireSchema) (fuel : Nat) (e : Envelope)
    (c : CodedInputStream) (v : Nat) (rest : List Byte)
    (hv : W.MessageType_IsValid (v % 4294967296) = true)
    (hs : c.stream = WriteVarint32 16 ++ (WriteVarint32 v ++ rest))
    (hl : c.pos + (1 + (WriteVarint32 v).length) ≤ c.current_limit) :
    ∃ c2, Envelope.mergeLoop W (fuel + 1) e c =
        Envelope.mergeLoop W fuel { e with type_ := some (v % 4294967296) } c2 ∧
      c2.stream = rest ∧ c2.pos = c.pos + (1 + (WriteVarint32 v).length) ∧
      c2.current_limit = c.current_limit ∧ c2.input.isSome = c.input.isSome := by
  have h8 : (WriteVarint32 16).length = 1 := by decide
  obtain ⟨c1, hr, hc, hst⟩ := CodedInputStream.ReadTag_write 16 hs (by omega)
  have hp1 := hc.pos
  have hl1 := hc.limit
  obtain ⟨c2, hr2, hp2, hst2⟩ := CodedInputStream.ReadVarint32_write v hst (by omega)
  refine ⟨c2, ?_, hst2, ?_, ?_, ?_⟩
  · rw [Envelope.mergeLoop, hr]
    simp only [show 16 % 4294967296 = 16 from rfl, show ¬ (16 = 8) by decide, if_false,
      if_true, hr2, hv]
  · have := hp2.1.pos; omega
  · have := hp2.1.limit; omega
  · exact hp2.1.under.input.trans hc.under.input

theorem Envelope.mergeLoop_message (W : WireSchema) (fuel : Nat) (e : Envelope)
    (c : CodedInputStream) (m rest : List Byte) (hm : m.length < 2147483648)
    (hs : c.stream = WriteVarint32 26 ++ (WriteVarint32 m.length ++ (m ++ rest)))
    (hl : c.pos + (1 + (WriteVarint32 m.length).length + m.length) ≤ c.current_limit) :
    ∃ c3, Envelope.mergeLoop W (fuel + 1) e c =
        Envelope.mergeLoop W fuel { e with message_ := some m } c3 ∧
      c3.stream = rest ∧
      c3.pos = c.pos + (1 + (WriteVarint32 m.length).length + m.length) ∧
      c3.current_limit = c.current_limit ∧ c3.input.isSome = c.input.isSome := by
  have h8 : (WriteVarint32 26).length = 1 := by decide
  obtain ⟨c1, hr, hc, hst⟩ := CodedInputStream.ReadTag_write 26 hs (by omega)
  have hp1 := hc.pos
  have hl1 := hc.limit
  obtain ⟨c2, hr2, hp2, hst2⟩ := CodedInputStream.ReadVarint32_write m.length hst (by omega)
  have hp2p := hp2.1.pos
  have hp2l := hp2.1.limit
  obtain ⟨c3, hr3, hp3, hst3⟩ := CodedInputStream.ReadRaw_ok m c2 rest hst2 (by omega)
  have hmod : m.length % 4294967296 = m.length := Nat.mod_eq_of_lt (by omega)
  have hint : ¬ toInt32 m.length < 0 := by
    unfold toInt32
    rw [hmod, if_pos hm]
    omega
  refine ⟨c3, ?_, hst3, ?_, ?_, ?_⟩
  · rw [Envelope.mergeLoop, hr]
    simp only [show 26 % 4294967296 = 26 from rfl, show ¬ (26 = 8) by decide,
      show ¬ (26 = 16) by decide, if_false, if_true, hr2, hmod, hint, hr3]
  · have := hp3.1.pos; omega
  · have := hp3.1.limit; omega
  · exact hp3.1.under.input.trans (hp2.1.under.input.trans hc.under.input)

theorem Envelope.mergeLoop_end (W : WireSchema) (fuel : Nat) (e : Envelope)
    (c : CodedInputStream) (h : c.current_limit ≤ c.pos) :
    Envelope.mergeLoop W (fuel + 1) e c =
      (some true, e, { c with legitimate_message_end := true, last_tag := 0 }) := by
  rw [Envelope.mergeLoop, CodedInputStream.ReadTag_at_limit c h]
  simp

/-- The parsing loop run on the serialisation of an envelope with its type and message
set, ending exactly at the limit, rebuilds that envelope. -/
theorem Envelope.mergeLoop_serialize (W : WireSchema) (E : Envelope) (t : Nat)
    (m : List Byte) (c : CodedInputStream) (rest : List Byte) (fuel : Nat)
    (hfuel : 4 ≤ fuel)
    (hid : ∀ i, E.id_ = some i → i < 4294967296)
    (htype : E.type_ = some t) (hvalid : W.MessageType_IsValid t = true)
    (hmsg : E.message_ = some m) (hm : m.length < 2147483648)
    (hs : c.stream = E.SerializeWithCachedSizes ++ rest)
    (hl : c.pos + E.ByteSize = c.current_limit) :
    ∃ c1, Envelope.mergeLoop W fuel Envelope.new c = (some true, E, c1) ∧
      c1.legitimate_message_end = true ∧ c1.stream = rest ∧
      c1.input.isSome = c.input.isSome := by
  obtain ⟨k, rfl⟩ : ∃ k, fuel = k + 4 := ⟨fuel - 4, by omega⟩
  have ht : t % 4294967296 = t := Nat.mod_eq_of_lt (by have := W.valid_lt t hvalid; omega)
  have h16 : (WriteVarint32 16).length = 1 := by decide
  have h26 : (WriteVarint32 26).length = 1 := by decide
  have h8 : (WriteVarint32 8).length = 1 := by decide
  obtain ⟨oi, ot, om⟩ := E
  simp only at htype hmsg hid
  subst htype hmsg
  cases oi with
  | none =>
    simp only [Envelope.SerializeWithCachedSizes, Envelope.ByteSize, List.nil_append,
      WriteVarint32SignExtended_natCast, VarintSize32SignExtended_natCast,
      List.append_assoc, Nat.zero_add, ← WriteVarint32_length] at hs hl
    obtain ⟨c2, e2, s2, p2, l2, i2⟩ := Envelope.mergeLoop_type W (k + 3) Envelope.new c t _
      (by rw [ht]; exact hvalid) hs (by omega)
    obtain ⟨c3, e3, s3, p3, l3, i3⟩ := Envelope.mergeLoop_message W (k + 2)
      { Envelope.new with type_ := some (t % 4294967296) } c2 m rest hm s2 (by omega)
    have e4 := Envelope.mergeLoop_end W (k + 1)
      { ({ Envelope.new with type_ := some (t % 4294967296) } : Envelope) with
        message_ := some m } c3 (by omega)
    have e := e2.trans (e3.trans e4)
    rw [ht] at e
    exact ⟨{ c3 with legitimate_message_end := true, last_tag := 0 }, e, rfl,
      by simpa [CodedInputStream.stream] using s3, i3.trans i2⟩
  | some i =>
    have hi : i % 4294967296 = i := Nat.mod_eq_of_lt (hid i rfl)
    simp only [Envelope.SerializeWithCachedSizes, Envelope.ByteSize,
      WriteVarint32SignExtended_natCast, VarintSize32SignExtended_natCast,
      List.append_assoc, ← WriteVarint32_length] at hs hl
    obtain ⟨c1, e1, s1, p1, l1, i1⟩ := Envelope.mergeLoop_id W (k + 3) Envelope.new c i _
      hs (by omega)
    obtain ⟨c2, e2, s2, p2, l2, i2⟩ := Envelope.mergeLoop_type W (k + 2)
      { Envelope.new with id_ := some (i % 4294967296) } c1 t _
      (by rw [ht]; exact hvalid) s1 (by omega)
    obtain ⟨c3, e3, s3, p3, l3, i3⟩ := Envelope.mergeLoop_message W (k + 1)
      { ({ Envelope.new with id_ := some (i % 4294967296) } : Envelope) with
        type_ := some (t % 4294967296) } c2 m rest hm s2 (by omega)
    have e4 := Envelope.mergeLoop_end W k
      { ({ ({ Envelope.new with id_ := some (i % 4294967296) } : Envelope) with
        type_ := some (t % 4294967296) } : Envelope) with message_ := some m } c3 (by omega)
    have e := e1.trans (e2.trans (e3.trans e4))
    rw [ht, hi] at e
    exact ⟨{ c3 with legitimate_message_end := true, last_tag := 0 }, e, rfl,
      by simpa [CodedInputStream.stream] using s3, i3.trans (i2.trans i1)⟩

theorem CodedInputStream.destroy_stream (c : CodedInputStream) (rawInput : FileInputStream)
    (h : c.input.isSome = true) : (c.destroy rawInput).stream = c.stream := by
  unfold CodedInputStream.destroy CodedInputStream.stream
  cases hi : c.input with
  | none => simp [hi] at h
  | some f => simp [FileInputStream.BackUp, FileInputStream.stream]

theorem CodedInputStream.ofStream_spec (rawInput : FileInputStream) :
    (CodedInputStream.ofStream rawInput).stream = rawInput.stream ∧
    (CodedInputStream.ofStream rawInput).pos = 0 ∧
    (CodedInputStream.ofStream rawInput).current_limit = INT_MAX ∧
    (CodedInputStream.ofStream rawInput).legitimate_message_end = false ∧
    (CodedInputStream.ofStream rawInput).input.isSome = true := by
  obtain ⟨r1, r2, r3, r4, _, _, r7⟩ := CodedInputStream.Refresh_spec
    { input := some rawInput, buffer := [], pos := 0, current_limit := INT_MAX,
      legitimate_message_end := false, last_tag := 0,
      recursion_budget := default_recursion_limit } rfl
  exact ⟨by rw [CodedInputStream.ofStream, r1]; simp [CodedInputStream.stream],
    r2, r3, r4, r7.input⟩

theorem VarintSize32_pos (v : Nat) : 1 ≤ VarintSize32 v := by
  unfold VarintSize32
  split_ifs <;> omega

theorem send_message_buffer (envelope : Envelope) (os : FileOutputStream) :
    (send_message envelope os).buffer =
      os.buffer ++ WriteVarint32 envelope.ByteSize ++ envelope.SerializeWithCachedSizes := by
  simp [send_message]

/-- C1 (framing round-trip). For every envelope `E` with its type set to a defined
enumerator and its message set (the id set or not, any payload bytes), whose frame is
at most `INT_MAX` bytes long, `recv_message` applied to a fresh message and to an input
stream that delivers the bytes `send_message` writes for `E`, in whatever bursts and
followed by whatever bytes, returns `true`, yields exactly `E`, and leaves exactly the
following bytes in the stream. -/
theorem recv_message_send_message (W : WireSchema) (E : Envelope) (t : Nat)
    (m : List Byte) (rawInput : FileInputStream) (rest : List Byte)
    (hid : ∀ i, E.id_ = some i → i < 4294967296)
    (htype : E.type_ = some t) (hvalid : W.MessageType_IsValid t = true)
    (hmsg : E.message_ = some m)
    (hlen : (send_message E FileOutputStream.new).buffer.length ≤ INT_MAX)
    (hstream : rawInput.stream = (send_message E FileOutputStream.new).buffer ++ rest) :
    ∃ rawInput1, recv_message W rawInput Envelope.new = (true, E, rawInput1) ∧
      rawInput1.stream = rest := by
  have hbuf : (send_message E FileOutputStream.new).buffer =
      WriteVarint32 E.ByteSize ++ E.SerializeWithCachedSizes := by
    simp [send_message_buffer, FileOutputStream.new]
  rw [hbuf] at hlen hstream
  simp only [List.length_append, Envelope.ByteSize_eq, INT_MAX] at hlen
  obtain ⟨s1, s2, s3, s4, s5⟩ := CodedInputStream.ofStream_spec rawInput
  obtain ⟨c1, hr, hp, hst⟩ := @CodedInputStream.ReadVarint32_write
    (CodedInputStream.ofStream rawInput) (E.SerializeWithCachedSizes ++ rest)
    E.ByteSize (by rw [s1, hstream, List.append_assoc]) (by rw [s2, s3, INT_MAX]; omega)
  have hpos := hp.1.pos
  have hlim := hp.1.limit
  rw [s2] at hpos
  rw [s3, INT_MAX] at hlim
  have hmod : E.ByteSize % 4294967296 = E.ByteSize := Nat.mod_eq_of_lt (by omega)
  have hint : toInt32 E.ByteSize = (E.ByteSize : Int) := by
    unfold toInt32
    rw [hmod, if_pos (by omega)]
  have hsz : E.ByteSize = 1 + VarintSize32 t + (1 + VarintSize32 m.length + m.length) +
      (match E.id_ with
        | some v => 1 + VarintSize32 v
        | none => 0) := by
    unfold Envelope.ByteSize
    simp only [htype, hmsg, VarintSize32SignExtended_natCast]
    omega
  have hv1 := VarintSize32_pos t
  have hv2 := VarintSize32_pos m.length
  have hpush : c1.PushLimit (E.ByteSize : Int) =
      { c1 with current_limit := c1.pos + E.ByteSize } := by
    unfold CodedInputStream.PushLimit
    rw [if_pos (by rw [INT_MAX]; omega)]
    simp only [Int.toNat_ofNat]
    congr 1
    omega
  obtain ⟨c3, hm3, hl3, hs3, hi3⟩ := Envelope.mergeLoop_serialize W E t m
    { c1 with current_limit := c1.pos + E.ByteSize } rest
    (CodedInputStream.fuel { c1 with current_limit := c1.pos + E.ByteSize })
    (by simp only [CodedInputStream.fuel]; omega) hid htype hvalid hmsg (by omega)
    (by simpa [CodedInputStream.stream] using hst) rfl
  have hinit : Envelope.IsInitialized W E = true := by
    simp [Envelope.IsInitialized, htype, hmsg]
  refine ⟨(c3.PopLimit c1.current_limit).destroy rawInput, ?_, ?_⟩
  · unfold recv_message
    simp only [hr, hmod, hint, hpush, Envelope.MergeFromCodedStream,
      Envelope.MergePartialFromCodedStream, hm3, hinit,
      CodedInputStream.ConsumedEntireMessage, hl3]
    rfl
  · rw [CodedInputStream.destroy_stream]
    · simpa [CodedInputStream.PopLimit, CodedInputStream.stream] using hs3
    · have : c3.input.isSome = true := by
        rw [hi3]
        exact hp.1.under.input.trans s5
      simpa [CodedInputStream.PopLimit] using this

/-- Witness of `recv_message_send_message`: the display query with id 1 and an empty
payload, delivered in one burst and followed by nothing. -/
theorem recv_message_send_message_witness :
    stfWire.MessageType_IsValid 19 = true ∧
    (send_message { id_ := some 1, type_ := some 19, message_ := some [] }
      FileOutputStream.new).buffer.length ≤ INT_MAX ∧
    (FileInputStream.new (Socket.ofBurst [6, 8, 1, 16, 19, 26, 0] [] RxEnd.closed)).stream =
      (send_message { id_ := some 1, type_ := some 19, message_ := some [] }
        FileOutputStream.new).buffer ++ [] ∧
    ∃ rawInput1, recv_message stfWire
        (FileInputStream.new (Socket.ofBurst [6, 8, 1, 16, 19, 26, 0] [] RxEnd.closed))
        Envelope.new =
      (true, { id_ := some 1, type_ := some 19, message_ := some [] }, rawInput1) ∧
      rawInput1.stream = [] :=
  ⟨by decide, by decide, by decide,
    recv_message_send_message stfWire { id_ := some 1, type_ := some 19, message_ := some [] }
      19 [] (FileInputStream.new (Socket.ofBurst [6, 8, 1, 16, 19, 26, 0] [] RxEnd.closed)) []
      (by intro i h; cases h; decide) rfl (by decide) rfl (by decide) (by decide)⟩

/-! ### Unknown fields and arbitrary input -/

theorem Consumes.congr_left {c c0 c1 : CodedInputStream} {bs : List Byte}
    (h : Consumes c bs c1) (e1 : c0.input = c.input) (e2 : c0.buffer = c.buffer)
    (e3 : c0.pos = c.pos) (e4 : c0.current_limit = c.current_limit)
    (e5 : c0.legitimate_message_end = c.legitimate_message_end) : Consumes c0 bs c1 := by
  have es : c0.stream = c.stream := by simp only [CodedInputStream.stream, e1, e2]
  refine ⟨by rw [es]; exact h.stream, by rw [e3]; exact h.pos, by rw [e4]; exact h.limit,
    by rw [e3, e4]; exact h.bound, by rw [e4, e5]; exact h.legit, ?_⟩
  refine ⟨by rw [e1]; exact h.under.input, ?_, ?_⟩
  · simp only [CodedInputStream.sent, e1]; exact h.under.sent
  · simp only [CodedInputStream.unread, e1]; exact h.under.unread

theorem Consumes.congr_right {c c1 c2 : CodedInputStream} {bs : List Byte}
    (h : Consumes c bs c1) (e1 : c2.input = c1.input) (e2 : c2.buffer = c1.buffer)
    (e3 : c2.pos = c1.pos) (e4 : c2.current_limit = c1.current_limit)
    (e5 : c2.legitimate_message_end = c1.legitimate_message_end) : Consumes c bs c2 := by
  have es : c2.stream = c1.stream := by simp only [CodedInputStream.stream, e1, e2]
  exact ⟨by rw [es]; exact h.stream, by rw [e3]; exact h.pos, by rw [e4]; exact h.limit,
    by rw [e3]; exact h.bound, by rw [e3, e5, es]; exact h.legit, h.under.of_input_eq e1⟩

theorem skipFieldWith_ok (fuel : Nat)
    (sm : CodedInputStream → Option Bool × CodedInputStream)
    (hsm : ∀ c r c1, sm c = (r, c1) → LoopOk fuel c r c1)
    (tag : Nat) (c : CodedInputStream) (r : Option Bool) (c1 : CodedInputStream)
    (h : skipFieldWith sm tag c = (r, c1)) : LoopOk fuel c r c1 := by
  unfold skipFieldWith at h
  have done : ∀ (b : Bool) (c2 : CodedInputStream), (∃ bs, Consumes c bs c2) →
      (some b, c2) = (r, c1) → LoopOk fuel c r c1 := by
    intro b c2 hc he
    simp only [Prod.mk.injEq] at he
    obtain ⟨h1, h2⟩ := he
    subst h1 h2
    exact ⟨hc, fun _ _ => by simp⟩
  split_ifs at h with h0 h1 h2 h3 h4 h5 h6
  · exact done _ _ ⟨[], Consumes.none_consumed c⟩ h
  · cases hv : c.ReadVarint64 with
    | mk o c2 =>
      obtain ⟨bs, hp, _⟩ := CodedInputStream.ReadVarint64_plain hv
      rw [hv] at h
      cases o <;> exact done _ _ ⟨bs, hp.1⟩ h
  · cases hv : c.ReadRaw 8 with
    | mk o c2 =>
      obtain ⟨bs, hp, _⟩ := CodedInputStream.ReadRaw_plain _ _ _ _ hv
      rw [hv] at h
      cases o <;> exact done _ _ ⟨bs, hp.1⟩ h
  · cases hv : c.ReadVarint32 with
    | mk o c2 =>
      obtain ⟨bs, hp, _⟩ := CodedInputStream.ReadVarint32_plain hv
      rw [hv] at h
      cases o with
      | none => exact done _ _ ⟨bs, hp.1⟩ h
      | some len =>
        simp only at h
        split_ifs at h
        · exact done _ _ ⟨bs, hp.1⟩ h
        · cases hw : c2.ReadRaw len with
          | mk o3 c3 =>
            obtain ⟨bs3, hp3, _⟩ := CodedInputStream.ReadRaw_plain _ _ _ _ hw
            rw [hw] at h
            cases o3 <;> exact done _ _ ⟨bs ++ bs3, hp.1.then_consumes hp3.1⟩ h
  · exact done _ _ ⟨[], Consumes.none_consumed c⟩ h
  · cases hv : sm { c with recursion_budget := c.recursion_budget - 1 } with
    | mk o c2 =>
      obtain ⟨⟨bs, hc⟩, hf⟩ := hsm _ _ _ hv
      have hc0 : Consumes c bs c2 := hc.congr_left rfl rfl rfl rfl rfl
      rw [hv] at h
      cases o with
      | none =>
        simp only [Prod.mk.injEq] at h
        obtain ⟨e1, e2⟩ := h
        subst e1 e2
        exact ⟨⟨bs, hc0⟩, fun a b => absurd rfl (hf a b)⟩
      | some b =>
        cases b with
        | false => exact done _ _ ⟨bs, hc0⟩ h
        | true =>
          exact done _ { c2 with recursion_budget := c2.recursion_budget + 1 }
            ⟨bs, hc0.congr_right rfl rfl rfl rfl rfl⟩ h
  · cases hv : c.ReadRaw 4 with
    | mk o c2 =>
      obtain ⟨bs, hp, _⟩ := CodedInputStream.ReadRaw_plain _ _ _ _ hv
      rw [hv] at h
      cases o <;> exact done _ _ ⟨bs, hp.1⟩ h
  · exact done _ _ ⟨[], Consumes.none_consumed c⟩ h

theorem SkipMessage_ok (fuel : Nat) : ∀ (c : CodedInputStream) (r : Option Bool)
    (c1 : CodedInputStream), SkipMessage fuel c = (r, c1) → LoopOk fuel c r c1 := by
  induction fuel with
  | zero =>
    intro c r c1 h
    simp only [SkipMessage, Prod.mk.injEq] at h
    obtain ⟨h1, h2⟩ := h
    subst h1 h2
    exact ⟨⟨[], Consumes.none_consumed c⟩, fun _ hh => by omega⟩
  | succ fuel ih =>
    intro c r c1 h
    rw [SkipMessage] at h
    cases ht : c.ReadTag with
    | mk tag c2 =>
      obtain ⟨bs, hc, _, hne⟩ := CodedInputStream.ReadTag_consumes ht
      rw [ht] at h
      simp only at h
      have done : ∀ (b : Bool), (some b, c2) = (r, c1) → LoopOk (fuel + 1) c r c1 := by
        intro b he
        simp only [Prod.mk.injEq] at he
        obtain ⟨h1, h2⟩ := he
        subst h1 h2
        exact ⟨⟨bs, hc⟩, fun _ _ => by simp⟩
      split_ifs at h with h0 h1
      · exact done _ h
      · exact done _ h
      · obtain ⟨hbs, _⟩ := hne h0
        have hlen : 0 < bs.length := List.length_pos.mpr hbs
        have hpos := hc.pos
        have hlim := hc.limit
        cases hs : skipFieldWith (SkipMessage fuel) tag c2 with
        | mk o c3 =>
          obtain ⟨⟨bs3, hc3⟩, hf3⟩ := skipFieldWith_ok fuel (SkipMessage fuel) ih tag c2 o c3 hs
          have hpos3 := hc3.pos
          have hlim3 := hc3.limit
          rw [hs] at h
          have stop : (o, c3) = (r, c1) → LoopOk (fuel + 1) c r c1 := by
            intro he
            simp only [Prod.mk.injEq] at he
            obtain ⟨e1, e2⟩ := he
            subst e1 e2
            refine ⟨⟨bs ++ bs3, hc.then_consumes hc3⟩, fun hb hfu => ?_⟩
            have := hc.bound hb
            exact hf3 (by omega) (by omega)
          cases o with
          | none => exact stop h
          | some b =>
            cases b with
            | false => exact stop h
            | true =>
              simp only at h
              obtain ⟨⟨bs4, hc4⟩, hf4⟩ := ih _ _ _ h
              refine ⟨⟨bs ++ bs3 ++ bs4, (hc.then_consumes hc3).then_consumes hc4⟩, fun hb hfu => ?_⟩
              have h1 := hc.bound hb
              have h2 := hc3.bound (by omega)
              exact hf4 (by omega) (by omega)

/-- `SkipField` only consumes, and does not run out of fuel when given more fuel than
there are bytes before the limit. -/
theorem SkipField_fuel (fuel tag : Nat) (c : CodedInputStream) (r : Option Bool)
    (c1 : CodedInputStream) (h : SkipField fuel tag c = (r, c1)) : LoopOk fuel c r c1 :=
  skipFieldWith_ok fuel (SkipMessage fuel) (SkipMessage_ok fuel) tag c r c1 h

theorem Envelope.mergeLoop_ok (W : WireSchema) (fuel : Nat) : ∀ (e : Envelope)
    (c : CodedInputStream) (r : Option Bool) (e1 : Envelope) (c1 : CodedInputStream),
    Envelope.mergeLoop W fuel e c = (r, e1, c1) → LoopOk fuel c r c1 := by
  induction fuel with
  | zero =>
    intro e c r e1 c1 h
    simp only [Envelope.mergeLoop, Prod.mk.injEq] at h
    obtain ⟨h1, _, h3⟩ := h
    subst h1 h3
    exact ⟨⟨[], Consumes.none_consumed c⟩, fun _ hh => by omega⟩
  | succ fuel ih =>
    intro e c r e1 c1 h
    rw [Envelope.mergeLoop] at h
    cases ht : c.ReadTag with
    | mk tag c2 =>
      obtain ⟨bs, hc, _, hne⟩ := CodedInputStream.ReadTag_consumes ht
      rw [ht] at h
      simp only at h
      have done : ∀ (b : Bool) (e2 : Envelope) (c3 : CodedInputStream),
          (∃ bs3, Consumes c bs3 c3) → (some b, e2, c3) = (r, e1, c1) →
          LoopOk (fuel + 1) c r c1 := by
        intro b e2 c3 hc3 he
        simp only [Prod.mk.injEq] at he
        obtain ⟨h1, _, h3⟩ := he
        subst h1 h3
        exact ⟨hc3, fun _ _ => by simp⟩
      have cont : tag ≠ 0 → ∀ (e2 : Envelope) (c3 : CodedInputStream) (bs3 : List Byte),
          Consumes c2 bs3 c3 → Envelope.mergeLoop W fuel e2 c3 = (r, e1, c1) →
          LoopOk (fuel + 1) c r c1 := by
        intro h0 e2 c3 bs3 hc3 he
        obtain ⟨hbs, _⟩ := hne h0
        have hlen : 0 < bs.length := List.length_pos.mpr hbs
        obtain ⟨⟨bs4, hc4⟩, hf4⟩ := ih _ _ _ _ _ he
        refine ⟨⟨bs ++ bs3 ++ bs4, (hc.then_consumes hc3).then_consumes hc4⟩, fun hb hfu => ?_⟩
        have h1 := hc.bound hb
        have h2 := hc3.bound (by rw [hc.limit]; exact h1)
        have p1 := hc.pos
        have p2 := hc3.pos
        have l1 := hc.limit
        have l2 := hc3.limit
        exact hf4 (by omega) (by omega)
      split_ifs at h with h8 h16 h26 h0
      · cases hv : c2.ReadVarint32 with
        | mk o c3 =>
          obtain ⟨bs3, hp, _⟩ := CodedInputStream.ReadVarint32_plain hv
          rw [hv] at h
          cases o with
          | none => exact done _ _ _ ⟨bs ++ bs3, hc.then_consumes hp.1⟩ h
          | some v => exact cont (by omega) _ _ _ hp.1 h
      · cases hv : c2.ReadVarint32 with
        | mk o c3 =>
          obtain ⟨bs3, hp, _⟩ := CodedInputStream.ReadVarint32_plain hv
          rw [hv] at h
          cases o with
          | none => exact done _ _ _ ⟨bs ++ bs3, hc.then_consumes hp.1⟩ h
          | some v =>
            simp only at h
            split_ifs at h <;> exact cont (by omega) _ _ _ hp.1 h
      · cases hv : c2.ReadVarint32 with
        | mk o c3 =>
          obtain ⟨bs3, hp, _⟩ := CodedInputStream.ReadVarint32_plain hv
          rw [hv] at h
          cases o with
          | none => exact done _ _ _ ⟨bs ++ bs3, hc.then_consumes hp.1⟩ h
          | some len =>
            simp only at h
            split_ifs at h
            · exact done _ _ _ ⟨bs ++ bs3, hc.then_consumes hp.1⟩ h
            · cases hw : c3.ReadRaw len with
              | mk o4 c4 =>
                obtain ⟨bs4, hp4, _⟩ := CodedInputStream.ReadRaw_plain _ _ _ _ hw
                rw [hw] at h
                cases o4 with
                | none => exact done _ _ _ ⟨bs ++ (bs3 ++ bs4), hc.then_consumes (hp.1.then_consumes hp4.1)⟩ h
                | some m => exact cont (by omega) _ _ _ (hp.1.then_consumes hp4.1) h
      · exact done _ _ _ ⟨bs, hc⟩ h
      · cases hs : SkipField fuel tag c2 with
        | mk o c3 =>
          obtain ⟨⟨bs3, hc3⟩, hf3⟩ := SkipField_fuel fuel tag c2 o c3 hs
          rw [hs] at h
          have stop : (o, e, c3) = (r, e1, c1) → LoopOk (fuel + 1) c r c1 := by
            intro he
            simp only [Prod.mk.injEq] at he
            obtain ⟨e1, _, e3⟩ := he
            subst e1 e3
            refine ⟨⟨bs ++ bs3, hc.then_consumes hc3⟩, fun hb hfu => ?_⟩
            obtain ⟨hbs, _⟩ := hne h0
            have hlen : 0 < bs.length := List.length_pos.mpr hbs
            have := hc.bound hb
            have p1 := hc.pos
            have l1 := hc.limit
            exact hf3 (by omega) (by omega)
          cases o with
          | none => exact stop h
          | some b =>
            cases b with
            | false => exact stop h
            | true => exact cont h0 _ _ _ hc3 h

/-- The loop of `MergePartialFromCodedStream` never uses up the fuel it is given. -/
theorem Envelope.mergeLoop_fuel (W : WireSchema) (e : Envelope) (c : CodedInputStream)
    (hb : c.pos ≤ c.current_limit) : (Envelope.mergeLoop W c.fuel e c).1 ≠ none := by
  cases h : Envelope.mergeLoop W c.fuel e c with
  | mk r p =>
    cases p with
    | mk e1 c1 =>
      exact (Envelope.mergeLoop_ok W c.fuel e c r e1 c1 h).2 hb
        (by simp only [CodedInputStream.fuel]; omega)

theorem Envelope.MergeFromCodedStream_consumes (W : WireSchema) (e : Envelope)
    (c : CodedInputStream) (b : Bool) (e1 : Envelope) (c1 : CodedInputStream)
    (h : Envelope.MergeFromCodedStream W e c = (b, e1, c1)) : ∃ bs, Consumes c bs c1 := by
  unfold Envelope.MergeFromCodedStream Envelope.MergePartialFromCodedStream at h
  cases hm : Envelope.mergeLoop W c.fuel e c with
  | mk r p =>
    cases p with
    | mk e2 c2 =>
      have hc := (Envelope.mergeLoop_ok W c.fuel e c r e2 c2 hm).1
      rw [hm] at h
      cases r with
      | none =>
        simp only [Prod.mk.injEq] at h
        obtain ⟨_, _, h3⟩ := h
        subst h3
        exact hc
      | some b2 =>
        cases b2 <;>
        · simp only [Prod.mk.injEq] at h
          obtain ⟨_, _, h3⟩ := h
          subst h3
          exact hc

/-! ### What `recv_message` does to the socket -/

theorem CodedInputStream.destroy_file (c : CodedInputStream) (rawInput : FileInputStream)
    (h : c.input.isSome = true) :
    (c.destroy rawInput).file.sent = c.sent ∧
    (c.destroy rawInput).file.stream.length = c.unread := by
  unfold CodedInputStream.destroy CodedInputStream.sent CodedInputStream.unread
  cases hi : c.input with
  | none => simp [hi] at h
  | some f => simp [FileInputStream.BackUp]

theorem CodedInputStream.ofStream_under (rawInput : FileInputStream) :
    (CodedInputStream.ofStream rawInput).sent = rawInput.file.sent ∧
    (CodedInputStream.ofStream rawInput).unread ≤ rawInput.file.stream.length := by
  obtain ⟨_, _, _, _, _, _, r7⟩ := CodedInputStream.Refresh_spec
    { input := some rawInput, buffer := [], pos := 0, current_limit := INT_MAX,
      legitimate_message_end := false, last_tag := 0,
      recursion_budget := default_recursion_limit } rfl
  exact ⟨r7.sent, r7.unread⟩

/-- Building a `CodedInputStream` on a fresh `FileInputStream` takes at least one byte
off a socket that has any. -/
theorem CodedInputStream.ofStream_unread_lt (socket : Socket) (h : socket.stream ≠ []) :
    (CodedInputStream.ofStream (FileInputStream.new socket)).unread <
      socket.stream.length := by
  have e := Socket.arrive_stream socket
  cases ha : socket.arrive.avail with
  | nil => exact absurd (Socket.arrive_avail_nil socket ha) h
  | cons x xs =>
    have hn : (FileInputStream.new socket).Next =
        (some ((x :: xs).take kDefaultBlockSize),
          { file := { socket.arrive with avail := (x :: xs).drop kDefaultBlockSize },
            backup := [] }) := by
      simp [FileInputStream.Next, FileInputStream.new, Socket.read, ha, kDefaultBlockSize]
    have hr : CodedInputStream.ofStream (FileInputStream.new socket) =
        { input := some { file := { socket.arrive with
              avail := (x :: xs).drop kDefaultBlockSize }, backup := [] },
          buffer := (x :: xs).take kDefaultBlockSize, pos := 0, current_limit := INT_MAX,
          legitimate_message_end := false, last_tag := 0,
          recursion_budget := default_recursion_limit } := by
      simp [CodedInputStream.ofStream, CodedInputStream.Refresh, INT_MAX, hn]
    rw [hr, ← e]
    simp only [CodedInputStream.unread, Socket.stream, ha, List.length_append,
      List.length_drop, List.length_cons, kDefaultBlockSize]
    omega

/-- The stream `recv_message` hands back is what its `CodedInputStream` leaves behind,
and that reader has only consumed. -/
theorem recv_message_final (W : WireSchema) (rawInput : FileInputStream)
    (message : Envelope) :
    ∃ c, (recv_message W rawInput message).2.2 = c.destroy rawInput ∧
      Under (CodedInputStream.ofStream rawInput) c := by
  unfold recv_message
  cases hv : (CodedInputStream.ofStream rawInput).ReadVarint32 with
  | mk o c1 =>
    obtain ⟨bs, hp, _⟩ := CodedInputStream.ReadVarint32_plain hv
    cases o with
    | none => exact ⟨c1, by simp only [hv], hp.1.under⟩
    | some size =>
      simp only [hv]
      have hpush : Under c1 (c1.PushLimit (toInt32 size)) := by
        unfold CodedInputStream.PushLimit
        split_ifs
        · exact (Under.same c1).of_input_eq rfl
        · exact Under.same c1
      cases hm : Envelope.MergeFromCodedStream W message (c1.PushLimit (toInt32 size)) with
      | mk b p =>
        cases p with
        | mk m1 c3 =>
          obtain ⟨bs3, hc3⟩ := Envelope.MergeFromCodedStream_consumes W _ _ _ _ _ hm
          have hu : Under (CodedInputStream.ofStream rawInput) c3 :=
            hp.1.under.then_under (hpush.then_under hc3.under)
          cases b with
          | false => exact ⟨c3, by simp only [hm], hu⟩
          | true =>
            simp only [hm]
            split_ifs
            · exact ⟨c3, rfl, hu⟩
            · exact ⟨c3.PopLimit c1.current_limit, rfl, hu.of_input_eq rfl⟩

/-- `recv_message` writes nothing to the socket and never gives bytes back to it; on a
fresh `FileInputStream` it takes at least one byte off a socket that has any. -/
theorem recv_message_socket (W : WireSchema) (socket : Socket) (message : Envelope) :
    (recv_message W (FileInputStream.new socket) message).2.2.file.sent = socket.sent ∧
    (recv_message W (FileInputStream.new socket) message).2.2.file.stream.length ≤
      socket.stream.length ∧
    (socket.stream ≠ [] →
      (recv_message W (FileInputStream.new socket) message).2.2.file.stream.length <
        socket.stream.length) := by
  obtain ⟨c, hc, hu⟩ := recv_message_final W (FileInputStream.new socket) message
  obtain ⟨s1, s2⟩ := CodedInputStream.ofStream_under (FileInputStream.new socket)
  obtain ⟨_, _, _, _, s5⟩ := CodedInputStream.ofStream_spec (FileInputStream.new socket)
  have hi : c.input.isSome = true := hu.input.trans s5
  obtain ⟨d1, d2⟩ := CodedInputStream.destroy_file c (FileInputStream.new socket) hi
  rw [hc, d1, d2]
  have e1 := hu.sent
  have e2 := hu.unread
  refine ⟨e1.trans s1, Nat.le_trans e2 s2, fun h => ?_⟩
  exact Nat.lt_of_le_of_lt e2 (CodedInputStream.ofStream_unread_lt socket h)

/-! ### `receive_data` and the loop of `manage_connexion` -/

theorem Socket.recv_peek_snd (s : Socket) (n : Nat) : (s.recv_peek n).2 = s.arrive := by
  unfold Socket.recv_peek
  cases ha : s.arrive.avail <;> simp only [ha]

theorem Socket.recv_peek_pos (s : Socket) :
    (s.recv_peek 512).1 > 0 ↔ s.arrive.avail ≠ [] := by
  unfold Socket.recv_peek
  cases ha : s.arrive.avail with
  | nil =>
    simp only [ha, ne_eq, not_true_eq_false, iff_false]
    cases s.arrive.rxEnd <;> decide
  | cons x xs =>
    simp only [ha, List.take_succ_cons, List.length_cons, ne_eq, reduceCtorEq,
      not_false_eq_true, iff_true]
    omega

theorem Socket.stream_ne_nil_of_avail (s : Socket) (h : s.arrive.avail ≠ []) :
    s.stream ≠ [] := by
  rw [← Socket.arrive_stream]
  unfold Socket.stream
  simp [h]

/-- The two outcomes of `receive_data`: either it returns -1 after a peek that found no
data and leaves the socket as the peek left it, or it returns 1 after a peek that found
data and has taken at least one byte off the socket. -/
theorem receive_data_cases (W : WireSchema) (socket : Socket) :
    (¬ (socket.recv_peek 512).1 > 0 ∧ receive_data W socket = (-1, socket.arrive)) ∨
    ((socket.recv_peek 512).1 > 0 ∧ (receive_data W socket).1 = 1 ∧
      (receive_data W socket).2.stream.length < socket.stream.length) := by
  have hsnd := Socket.recv_peek_snd socket 512
  have hpos := Socket.recv_peek_pos socket
  unfold receive_data
  cases hp : socket.recv_peek 512 with
  | mk bytecount socket0 =>
    rw [hp] at hsnd hpos
    simp only at hsnd hpos
    subst hsnd
    by_cases hb : bytecount > 0
    · right
      have hne := Socket.stream_ne_nil_of_avail socket (hpos.mp hb)
      obtain ⟨_, _, hlt⟩ := recv_message_socket W socket.arrive Envelope.new
      have hlt1 := hlt (by rw [Socket.arrive_stream]; exact hne)
      rw [Socket.arrive_stream] at hlt1
      refine ⟨hb, ?_⟩
      simp only [hb, if_true]
      cases hr : recv_message W (FileInputStream.new socket.arrive) Envelope.new with
      | mk ok p =>
        cases p with
        | mk input_msg is1 =>
          rw [hr] at hlt1
          cases ok with
          | false => exact ⟨rfl, hlt1⟩
          | true =>
            simp only
            split_ifs
            · exact ⟨rfl, hlt1⟩
            · exact ⟨rfl, hlt1⟩
    · left
      refine ⟨hb, ?_⟩
      simp only [hb, if_false]

theorem Socket.select_stream (s : Socket) : s.select.2.stream = s.stream := by
  unfold Socket.select
  have e := Socket.arrive_stream s
  split
  · rfl
  · simpa [Socket.stream] using e
  · exact e

/-- The loop of `manage_connexion` ends within as many iterations as the peer has bytes
to deliver, plus one. -/
theorem manage_connexion_loop_fuel (W : WireSchema) (fuel : Nat) : ∀ (socket : Socket),
    socket.stream.length < fuel → (manage_connexion_loop W fuel socket).isSome = true := by
  induction fuel with
  | zero => intro socket h; omega
  | succ fuel ih =>
    intro socket h
    rw [manage_connexion_loop]
    have hs := Socket.select_stream socket
    cases hsel : socket.select with
    | mk numReady socket1 =>
      rw [hsel] at hs
      simp only at hs ⊢
      by_cases h1 : numReady > 0
      · simp only [h1, if_true]
        rcases receive_data_cases W socket1 with ⟨_, h3⟩ | ⟨_, h3, h4⟩
        · rw [h3]; rfl
        · cases hr : receive_data W socket1 with
          | mk r socket2 =>
            rw [hr] at h3 h4
            simp only at h3 h4 ⊢
            subst h3
            simp only [show ¬ ((1 : Int) = -1) by decide, if_false]
            have hs1 := congrArg List.length hs
            exact ih socket2 (by omega)
      · simp only [h1, if_false]
        rfl

/-- The function `manage_connexion` returns what its loop returns: the fuel it passes
always suffices. -/
theorem manage_connexion_loop_eq (W : WireSchema) (handler : Socket) :
    manage_connexion_loop W (handler.stream.length + 1) handler =
      some (manage_connexion W handler) := by
  have h := manage_connexion_loop_fuel W (handler.stream.length + 1) handler (by omega)
  unfold manage_connexion
  cases hl : manage_connexion_loop W (handler.stream.length + 1) handler with
  | none => rw [hl] at h; cases h
  | some s => rfl

/-- Inside `recv_message` the parsing loop never uses up the fuel it is given. -/
theorem recv_message_mergeLoop_fuel (W : WireSchema) (rawInput : FileInputStream)
    (message : Envelope) (size : Nat) (input1 : CodedInputStream)
    (h : (CodedInputStream.ofStream rawInput).ReadVarint32 = (some size, input1)) :
    (Envelope.mergeLoop W (input1.PushLimit (toInt32 size)).fuel message
      (input1.PushLimit (toInt32 size))).1 ≠ none := by
  obtain ⟨_, s2, s3, _, _⟩ := CodedInputStream.ofStream_spec rawInput
  obtain ⟨bs, hp, _⟩ := CodedInputStream.ReadVarint32_plain h
  have hb := hp.1.bound (by rw [s2]; omega)
  have hl := hp.1.limit
  apply Envelope.mergeLoop_fuel
  unfold CodedInputStream.PushLimit
  split_ifs
  · simp only
    omega
  · omega

/-! ## The claims -/

theorem writeVarintLoop_spec (n : Nat) : ∀ v, v < 128 ^ (n + 1) →
    specVarintFraming (writeVarintLoop n v) = true ∧
    specVarintValue (writeVarintLoop n v) = v := by
  induction n with
  | zero =>
    intro v hv
    have hv1 : v < 128 := by simpa using hv
    simp [writeVarintLoop, specVarintFraming, specVarintValue, hv1, Nat.mod_eq_of_lt hv1]
  | succ n ih =>
    intro v hv
    by_cases hv1 : v < 128
    · simp [writeVarintLoop, specVarintFraming, specVarintValue, hv1, Nat.mod_eq_of_lt hv1]
    · have hdiv : v / 128 < 128 ^ (n + 1) := by
        rw [Nat.div_lt_iff_lt_mul (by norm_num)]
        calc v < 128 ^ (n + 1 + 1) := hv
          _ = 128 ^ (n + 1) * 128 := by ring
      obtain ⟨h1, h2⟩ := ih (v / 128) hdiv
      have hne := writeVarintLoop_ne_nil n (v / 128)
      simp only [writeVarintLoop, hv1, if_false]
      cases hw : writeVarintLoop n (v / 128) with
      | nil => exact absurd hw hne
      | cons b bs =>
        rw [hw] at h1 h2
        refine ⟨?_, ?_⟩
        · show (decide (128 ≤ v % 128 + 128 ∧ v % 128 + 128 < 256) &&
            specVarintFraming (b :: bs)) = true
          rw [h1, Bool.and_true, decide_eq_true_eq]
          omega
        · show (v % 128 + 128) % 128 + 128 * specVarintValue (b :: bs) = v
          rw [h2]
          omega

/-- C8 (exact length prefix). For every envelope whose `ByteSize()` fits an `int`, what
`send_message` appends to the output stream is a varint in the specification's sense
(seven magnitude bits per byte, least-significant group first, continuation bit on every
byte but the last) whose value is the exact length of the envelope's serialisation,
immediately followed by that serialisation, and nothing else. -/
theorem send_message_exact_length (E : Envelope) (os : FileOutputStream)
    (h : E.ByteSize ≤ INT_MAX) :
    ∃ pre, (send_message E os).buffer = os.buffer ++ pre ++ E.SerializeWithCachedSizes ∧
      specVarintFraming pre = true ∧
      specVarintValue pre = E.SerializeWithCachedSizes.length := by
  refine ⟨WriteVarint32 E.ByteSize, send_message_buffer E os, ?_⟩
  rw [Envelope.ByteSize_eq]
  unfold WriteVarint32
  unfold INT_MAX at h
  rw [Nat.mod_eq_of_lt (by omega)]
  exact writeVarintLoop_spec 4 E.ByteSize (by norm_num; omega)

/-- Witness of `send_message_exact_length`: the response to a display query, whose 29
bytes are preceded by the single byte 29. -/
theorem send_message_exact_length_witness :
    (process_message stfWire
      { id_ := some 1, type_ := some 19, message_ := some [] }).ByteSize ≤ INT_MAX ∧
    ∃ pre, (send_message (process_message stfWire
        { id_ := some 1, type_ := some 19, message_ := some [] }) FileOutputStream.new).buffer =
        FileOutputStream.new.buffer ++ pre ++ (process_message stfWire
          { id_ := some 1, type_ := some 19, message_ := some [] }).SerializeWithCachedSizes ∧
      specVarintFraming pre = true ∧
      specVarintValue pre = (process_message stfWire
        { id_ := some 1, type_ := some 19, message_ := some [] }).SerializeWithCachedSizes.length :=
  ⟨by decide, send_message_exact_length _ _ (by decide)⟩

/-- C2 (dispatch correctness). For every request whose type is `GET_DISPLAY`, whatever
its id and payload, `process_message` returns a response with the same id and the same
type whose payload parses as a display description with exactly success = true,
width = 240, height = 320, secure = false, xdpi = 240, ydpi = 320, fps = 2,
rotation = 0 and density = 280. -/
theorem process_message_GET_DISPLAY (W : WireSchema) (request : Envelope)
    (h : request.type W = W.GET_DISPLAY) :
    (process_message W request).id = request.id ∧
    (process_message W request).type W = request.type W ∧
    GetDisplayResponse.ParseFromString W (process_message W request).message =
      some { success_ := some true, width_ := some 240, height_ := some 320,
             secure_ := some false, xdpi_ := some 240, ydpi_ := some 320,
             fps_ := some 2, rotation_ := some 0, density_ := some 280 } := by
  have hp : process_message W request =
      { id_ := some request.id, type_ := some W.GET_DISPLAY,
        message_ := some display_response.SerializeToString } := by
    unfold process_message
    rw [if_pos h]
    rfl
  refine ⟨?_, ?_, ?_⟩
  · rw [hp]; rfl
  · rw [hp, h]; rfl
  · rw [hp]
    show GetDisplayResponse.ParseFromString W display_response.SerializeToString = _
    have hl : GetDisplayResponse.mergeLoop (display_response.SerializeToString.length + 1)
        GetDisplayResponse.new (CodedInputStream.ofArray display_response.SerializeToString) =
        (some true,
          { success_ := some true, width_ := some 240, height_ := some 320,
            secure_ := some false, xdpi_ := some 240, ydpi_ := some 320,
            fps_ := some 2, rotation_ := some 0, density_ := some 280 },
          { input := none, buffer := [], pos := 23, current_limit := INT_MAX,
            legitimate_message_end := true, last_tag := 0,
            recursion_budget := default_recursion_limit }) := by decide
    unfold GetDisplayResponse.ParseFromString
    rw [hl]
    simp [CodedInputStream.ConsumedEntireMessage]

/-- Witness of `process_message_GET_DISPLAY`: a display query with id 7 and a three-byte
payload, in the STF schema. -/
theorem process_message_GET_DISPLAY_witness :
    Envelope.type stfWire { id_ := some 7, type_ := some 19, message_ := some [1, 2, 3] } =
      stfWire.GET_DISPLAY ∧
    (process_message stfWire { id_ := some 7, type_ := some 19, message_ := some [1, 2, 3] }).id =
      Envelope.id { id_ := some 7, type_ := some 19, message_ := some [1, 2, 3] } ∧
    (process_message stfWire { id_ := some 7, type_ := some 19, message_ := some [1, 2, 3] }).type
        stfWire =
      Envelope.type stfWire { id_ := some 7, type_ := some 19, message_ := some [1, 2, 3] } ∧
    GetDisplayResponse.ParseFromString stfWire
        (process_message stfWire
          { id_ := some 7, type_ := some 19, message_ := some [1, 2, 3] }).message =
      some { success_ := some true, width_ := some 240, height_ := some 320,
             secure_ := some false, xdpi_ := some 240, ydpi_ := some 320,
             fps_ := some 2, rotation_ := some 0, density_ := some 280 } :=
  ⟨by decide, process_message_GET_DISPLAY stfWire
    { id_ := some 7, type_ := some 19, message_ := some [1, 2, 3] } (by decide)⟩

theorem manage_connexion_loop_step (W : WireSchema) (fuel : Nat)
    (before socket : Socket) (numReady : Int)
    (hsel : before.select = (numReady, socket)) (hn : numReady > 0) :
    manage_connexion_loop W (fuel + 1) before =
      if (receive_data W socket).1 = -1 then some (receive_data W socket).2
      else manage_connexion_loop W fuel (receive_data W socket).2 := by
  rw [manage_connexion_loop, hsel]
  simp only [hn, if_true]

/-- C7 (disconnect detection). Whenever the peek reports zero bytes, `receive_data`
returns -1 and leaves the socket exactly as the peek left it: nothing has been read
from it (no decoding was attempted) and nothing has been sent; and a
`manage_connexion` whose `select` has just reported this socket readable leaves its
loop at once and returns that socket. -/
theorem receive_data_peer_closed (W : WireSchema) (socket before : Socket)
    (numReady : Int) (fuel : Nat)
    (h : (socket.recv_peek 512).1 = 0) :
    receive_data W socket = (-1, (socket.recv_peek 512).2) ∧
    (socket.recv_peek 512).2.sent = socket.sent ∧
    (socket.recv_peek 512).2.stream = socket.stream ∧
    (before.select = (numReady, socket) → numReady > 0 →
      manage_connexion_loop W (fuel + 1) before = some (socket.recv_peek 512).2 ∧
      manage_connexion W before = (socket.recv_peek 512).2) := by
  have hsnd := Socket.recv_peek_snd socket 512
  have hrd : receive_data W socket = (-1, (socket.recv_peek 512).2) := by
    rcases receive_data_cases W socket with ⟨_, h2⟩ | ⟨h1, _⟩
    · rw [h2, hsnd]
    · omega
  have hsent : socket.arrive.sent = socket.sent := by
    unfold Socket.arrive
    split <;> rfl
  refine ⟨hrd, by rw [hsnd]; exact hsent, by rw [hsnd]; exact Socket.arrive_stream socket, ?_⟩
  intro hsel hn
  have hloop : ∀ k, manage_connexion_loop W (k + 1) before =
      some (socket.recv_peek 512).2 := by
    intro k
    rw [manage_connexion_loop_step W k before socket numReady hsel hn, hrd]
    simp
  refine ⟨hloop fuel, ?_⟩
  unfold manage_connexion
  rw [hloop]

/-- Witness of `receive_data_peer_closed`: a socket whose peer has closed without
sending anything, reported readable by `select`. -/
theorem receive_data_peer_closed_witness :
    ((Socket.ofBurst [] [] RxEnd.closed).recv_peek 512).1 = 0 ∧
    (Socket.ofBurst [] [] RxEnd.closed).select = (1, Socket.ofBurst [] [] RxEnd.closed) ∧
    receive_data stfWire (Socket.ofBurst [] [] RxEnd.closed) =
      (-1, ((Socket.ofBurst [] [] RxEnd.closed).recv_peek 512).2) ∧
    ((Socket.ofBurst [] [] RxEnd.closed).recv_peek 512).2.sent =
      (Socket.ofBurst [] [] RxEnd.closed).sent ∧
    ((Socket.ofBurst [] [] RxEnd.closed).recv_peek 512).2.stream =
      (Socket.ofBurst [] [] RxEnd.closed).stream ∧
    manage_connexion_loop stfWire (0 + 1) (Socket.ofBurst [] [] RxEnd.closed) =
      some ((Socket.ofBurst [] [] RxEnd.closed).recv_peek 512).2 ∧
    manage_connexion stfWire (Socket.ofBurst [] [] RxEnd.closed) =
      ((Socket.ofBurst [] [] RxEnd.closed).recv_peek 512).2 :=
  have t := receive_data_peer_closed stfWire (Socket.ofBurst [] [] RxEnd.closed)
    (Socket.ofBurst [] [] RxEnd.closed) 1 0 (by decide)
  ⟨by decide, by decide, t.1, t.2.1, t.2.2.1, t.2.2.2 (by decide) (by decide)⟩

/-- The function `receive_data` reports the connection as ended exactly when its peek
finds no data or fails. -/
theorem receive_data_ended_iff (W : WireSchema) (socket : Socket) :
    (receive_data W socket).1 = -1 ↔ (socket.recv_peek 512).1 ≤ 0 := by
  rcases receive_data_cases W socket with ⟨h1, h2⟩ | ⟨h1, h2, _⟩
  · rw [h2]
    constructor
    · intro _; omega
    · intro _; rfl
  · rw [h2]
    constructor
    · intro h; exact absurd h (by decide)
    · intro h; omega

/-- One iteration of the loop of `manage_connexion`: it is left when `select` fails or
when the peek of `receive_data` finds no data or fails, and in no other case. -/
theorem manage_connexion_loop_iteration (W : WireSchema) (fuel : Nat) (socket : Socket) :
    manage_connexion_loop W (fuel + 1) socket =
      if socket.select.1 > 0 then
        if (socket.select.2.recv_peek 512).1 > 0 then
          manage_connexion_loop W fuel (receive_data W socket.select.2).2
        else some (socket.select.2.recv_peek 512).2
      else some socket.select.2 := by
  rw [manage_connexion_loop]
  cases hsel : socket.select with
  | mk numReady socket1 =>
    simp only
    by_cases hn : numReady > 0
    · simp only [hn, if_true]
      rcases receive_data_cases W socket1 with ⟨h1, h2⟩ | ⟨h1, h2, _⟩
      · rw [h2, if_neg h1, Socket.recv_peek_snd]
        simp
      · rw [if_pos h1, h2]
        simp
    · simp only [hn, if_false]

theorem Socket.select_failed (s : Socket) (h : s.select.1 ≤ 0) : s.select.2 = s := by
  unfold Socket.select at h ⊢
  split
  · rfl
  · next k hk =>
    rw [hk] at h
    simp at h
  · next hk =>
    rw [hk] at h
    simp at h

theorem Socket.recv_peek_again (s : Socket) (h : (s.recv_peek 512).1 ≤ 0) :
    ((s.recv_peek 512).2.recv_peek 512).1 ≤ 0 := by
  have hav : s.arrive.avail = [] := by
    by_contra hne
    have := (Socket.recv_peek_pos s).mpr hne
    omega
  have harr : s.arrive.arrive = s.arrive := by
    have hs : s.arrive = s := by
      unfold Socket.arrive at hav ⊢
      cases ha : s.avail with
      | cons x xs => rfl
      | nil =>
        cases hl : s.later with
        | nil => rfl
        | cons g gs => simp [ha, hl, Segment.bytes] at hav
    rw [hs, hs]
  rw [Socket.recv_peek_snd]
  have e : (s.arrive.recv_peek 512).1 = (s.recv_peek 512).1 := by
    unfold Socket.recv_peek
    simp only [harr]
  rw [e]
  exact h

/-- When the loop of `manage_connexion` is left, `select` fails on the socket it leaves
or a peek on it finds no data or fails. -/
theorem manage_connexion_loop_exit (W : WireSchema) (fuel : Nat) : ∀ (socket r : Socket),
    manage_connexion_loop W fuel socket = some r →
    r.select.1 ≤ 0 ∨ (r.recv_peek 512).1 ≤ 0 := by
  induction fuel with
  | zero =>
    intro socket r h
    simp [manage_connexion_loop] at h
  | succ fuel ih =>
    intro socket r h
    rw [manage_connexion_loop_iteration] at h
    by_cases hn : socket.select.1 > 0
    · rw [if_pos hn] at h
      by_cases hp : (socket.select.2.recv_peek 512).1 > 0
      · rw [if_pos hp] at h
        exact ih _ _ h
      · rw [if_neg hp] at h
        simp only [Option.some.injEq] at h
        subst h
        right
        exact Socket.recv_peek_again _ (by omega)
    · rw [if_neg hn] at h
      simp only [Option.some.injEq] at h
      subst h
      left
      rw [Socket.select_failed socket (by omega)]
      omega

/-- C3, as the code behaves. Whenever the peek finds data and `recv_message` fails,
`receive_data` sends nothing and returns 1, the value that keeps the connection open,
and a `manage_connexion` whose `select` has just reported this socket readable goes on
with the next iteration of its loop on the socket `receive_data` left. The connection
is ended in two cases only, whatever the socket `later` and the iteration: `receive_data`
returns -1 exactly when its peek finds no data or fails; an iteration of the loop of
`manage_connexion` ends it exactly when `select` fails or that peek finds no data or
fails; and so, when `manage_connexion` returns, `select` fails on the socket it leaves
or a peek on it finds no data or fails. -/
theorem receive_data_decode_failure (W : WireSchema) (socket before later : Socket)
    (numReady : Int) (fuel : Nat)
    (hpeek : (socket.recv_peek 512).1 > 0)
    (hfail : (recv_message W (FileInputStream.new (socket.recv_peek 512).2)
      Envelope.new).1 = false) :
    receive_data W socket =
      (1, (recv_message W (FileInputStream.new (socket.recv_peek 512).2)
        Envelope.new).2.2.file) ∧
    (receive_data W socket).2.sent = socket.sent ∧
    (before.select = (numReady, socket) → numReady > 0 →
      manage_connexion_loop W (fuel + 1) before =
        manage_connexion_loop W fuel (receive_data W socket).2) ∧
    ((receive_data W later).1 = -1 ↔ (later.recv_peek 512).1 ≤ 0) ∧
    manage_connexion_loop W (fuel + 1) later =
      (if later.select.1 > 0 then
        if (later.select.2.recv_peek 512).1 > 0 then
          manage_connexion_loop W fuel (receive_data W later.select.2).2
        else some (later.select.2.recv_peek 512).2
      else some later.select.2) ∧
    ((manage_connexion W later).select.1 ≤ 0 ∨
      ((manage_connexion W later).recv_peek 512).1 ≤ 0) := by
  have hsnd := Socket.recv_peek_snd socket 512
  have hsent : socket.arrive.sent = socket.sent := by
    unfold Socket.arrive
    split <;> rfl
  have hrd : receive_data W socket =
      (1, (recv_message W (FileInputStream.new (socket.recv_peek 512).2)
        Envelope.new).2.2.file) := by
    unfold receive_data
    cases hp : socket.recv_peek 512 with
    | mk bytecount socket0 =>
      rw [hp] at hpeek hfail
      simp only at hpeek hfail ⊢
      simp only [hpeek, if_true]
      cases hr : recv_message W (FileInputStream.new socket0) Envelope.new with
      | mk ok q =>
        cases q with
        | mk input_msg is1 =>
          rw [hr] at hfail
          simp only at hfail
          subst hfail
          rfl
  refine ⟨hrd, ?_, ?_, receive_data_ended_iff W later,
    manage_connexion_loop_iteration W fuel later,
    manage_connexion_loop_exit W _ later _ (manage_connexion_loop_eq W later)⟩
  · rw [hrd, hsnd]
    exact (recv_message_socket W socket.arrive Envelope.new).1.trans hsent
  · intro hsel hn
    rw [manage_connexion_loop_step W fuel before socket numReady hsel hn, hrd]
    simp

/-- Witness of `receive_data_decode_failure`: a frame of declared length 1 whose body is
the byte 0, which is no field, reported readable by `select`; the socket `later` is one
on which a well-formed display query follows that frame. -/
theorem receive_data_decode_failure_witness :
    ((Socket.ofBurst [1, 0] [] RxEnd.closed).recv_peek 512).1 > 0 ∧
    (recv_message stfWire
      (FileInputStream.new ((Socket.ofBurst [1, 0] [] RxEnd.closed).recv_peek 512).2)
      Envelope.new).1 = false ∧
    (Socket.ofBurst [1, 0] [] RxEnd.closed).select =
      (1, Socket.ofBurst [1, 0] [] RxEnd.closed) ∧
    receive_data stfWire (Socket.ofBurst [1, 0] [] RxEnd.closed) =
      (1, (recv_message stfWire
        (FileInputStream.new ((Socket.ofBurst [1, 0] [] RxEnd.closed).recv_peek 512).2)
        Envelope.new).2.2.file) ∧
    (receive_data stfWire (Socket.ofBurst [1, 0] [] RxEnd.closed)).2.sent =
      (Socket.ofBurst [1, 0] [] RxEnd.closed).sent ∧
    manage_connexion_loop stfWire (1 + 1) (Socket.ofBurst [1, 0] [] RxEnd.closed) =
      manage_connexion_loop stfWire 1
        (receive_data stfWire (Socket.ofBurst [1, 0] [] RxEnd.closed)).2 ∧
    ((receive_data stfWire
        (Socket.ofBurst [1, 0] [⟨6, [8, 1, 16, 19, 26, 0]⟩] RxEnd.closed)).1 = -1 ↔
      ((Socket.ofBurst [1, 0] [⟨6, [8, 1, 16, 19, 26, 0]⟩] RxEnd.closed).recv_peek 512).1
        ≤ 0) ∧
    manage_connexion_loop stfWire (1 + 1)
        (Socket.ofBurst [1, 0] [⟨6, [8, 1, 16, 19, 26, 0]⟩] RxEnd.closed) =
      (if (Socket.ofBurst [1, 0] [⟨6, [8, 1, 16, 19, 26, 0]⟩] RxEnd.closed).select.1 > 0 then
        if ((Socket.ofBurst [1, 0] [⟨6, [8, 1, 16, 19, 26, 0]⟩]
            RxEnd.closed).select.2.recv_peek 512).1 > 0 then
          manage_connexion_loop stfWire 1
            (receive_data stfWire
              (Socket.ofBurst [1, 0] [⟨6, [8, 1, 16, 19, 26, 0]⟩] RxEnd.closed).select.2).2
        else some ((Socket.ofBurst [1, 0] [⟨6, [8, 1, 16, 19, 26, 0]⟩]
          RxEnd.closed).select.2.recv_peek 512).2
      else some (Socket.ofBurst [1, 0] [⟨6, [8, 1, 16, 19, 26, 0]⟩] RxEnd.closed).select.2) ∧
    ((manage_connexion stfWire
        (Socket.ofBurst [1, 0] [⟨6, [8, 1, 16, 19, 26, 0]⟩] RxEnd.closed)).select.1 ≤ 0 ∨
      ((manage_connexion stfWire
        (Socket.ofBurst [1, 0] [⟨6, [8, 1, 16, 19, 26, 0]⟩] RxEnd.closed)).recv_peek 512).1
        ≤ 0) :=
  have t := receive_data_decode_failure stfWire (Socket.ofBurst [1, 0] [] RxEnd.closed)
    (Socket.ofBurst [1, 0] [] RxEnd.closed)
    (Socket.ofBurst [1, 0] [⟨6, [8, 1, 16, 19, 26, 0]⟩] RxEnd.closed) 1 1
    (by decide) (by decide)
  ⟨by decide, by decide, by decide, t.1, t.2.1, t.2.2.1 (by decide) (by decide),
    t.2.2.2.1, t.2.2.2.2.1, t.2.2.2.2.2⟩

/-- C3 as stated fails. The peer sends a frame of declared length 1 whose body is the
byte 0, and later a well-formed display query. The peek finds data and `recv_message`
fails on the first frame, yet `receive_data` does not return -1, and `manage_connexion`
stays in its loop: it reads the second frame and answers it. -/
theorem decode_failure_keeps_connection :
    ((Socket.ofBurst [1, 0] [⟨6, [8, 1, 16, 19, 26, 0]⟩] RxEnd.closed).recv_peek 512).1 > 0 ∧
    (recv_message stfWire (FileInputStream.new
      ((Socket.ofBurst [1, 0] [⟨6, [8, 1, 16, 19, 26, 0]⟩] RxEnd.closed).recv_peek 512).2)
      Envelope.new).1 = false ∧
    (receive_data stfWire
      (Socket.ofBurst [1, 0] [⟨6, [8, 1, 16, 19, 26, 0]⟩] RxEnd.closed)).1 ≠ -1 ∧
    (manage_connexion stfWire
      (Socket.ofBurst [1, 0] [⟨6, [8, 1, 16, 19, 26, 0]⟩] RxEnd.closed)).sent =
      (send_message (process_message stfWire
        { id_ := some 1, type_ := some 19, message_ := some [] })
        FileOutputStream.new).buffer := by
  decide

/-- C6 (unknown-type silence). Whenever the peek finds data and `recv_message` decodes a
request whose type is not `GET_DISPLAY`, `process_message` returns the empty envelope,
of encoded length zero; `receive_data` returns 1 and leaves the socket as `recv_message`
left it, with nothing sent; and a `manage_connexion` whose `select` has just reported
this socket readable goes on with the next iteration of its loop. -/
theorem receive_data_unknown_type (W : WireSchema) (socket before : Socket)
    (numReady : Int) (fuel : Nat) (input_msg : Envelope) (is1 : FileInputStream)
    (hpeek : (socket.recv_peek 512).1 > 0)
    (hrecv : recv_message W (FileInputStream.new (socket.recv_peek 512).2) Envelope.new =
      (true, input_msg, is1))
    (htype : input_msg.type W ≠ W.GET_DISPLAY) :
    process_message W input_msg = Envelope.new ∧
    (process_message W input_msg).ByteSize = 0 ∧
    receive_data W socket = (1, is1.file) ∧
    is1.file.sent = socket.sent ∧
    (before.select = (numReady, socket) → numReady > 0 →
      manage_connexion_loop W (fuel + 1) before = manage_connexion_loop W fuel is1.file) := by
  have hsnd := Socket.recv_peek_snd socket 512
  have hsent : socket.arrive.sent = socket.sent := by
    unfold Socket.arrive
    split <;> rfl
  have hpm : process_message W input_msg = Envelope.new := by
    unfold process_message
    rw [if_neg htype]
  have hsize : (process_message W input_msg).ByteSize = 0 := by
    rw [hpm]; rfl
  have hrd : receive_data W socket = (1, is1.file) := by
    unfold receive_data
    cases hp : socket.recv_peek 512 with
    | mk bytecount socket0 =>
      rw [hp] at hpeek hrecv
      simp only at hpeek hrecv ⊢
      simp only [hpeek, if_true, hrecv, hsize, gt_iff_lt, Nat.lt_irrefl, if_false]
  refine ⟨hpm, hsize, hrd, ?_, ?_⟩
  · have := (recv_message_socket W socket.arrive Envelope.new).1
    rw [← hsnd, hrecv] at this
    rw [← hsnd] at hsent
    exact this.trans hsent
  · intro hsel hn
    rw [manage_connexion_loop_step W fuel before socket numReady hsel hn, hrd]
    simp

/-- Witness of `receive_data_unknown_type`: a well-formed request of type 1, which is a
defined enumerator of the STF schema other than `GET_DISPLAY`, followed by the peer's
close. -/
theorem receive_data_unknown_type_witness :
    ((Socket.ofBurst [6, 8, 1, 16, 1, 26, 0] [] RxEnd.closed).recv_peek 512).1 > 0 ∧
    recv_message stfWire (FileInputStream.new
      ((Socket.ofBurst [6, 8, 1, 16, 1, 26, 0] [] RxEnd.closed).recv_peek 512).2)
      Envelope.new =
      (true, { id_ := some 1, type_ := some 1, message_ := some [] },
        FileInputStream.new (Socket.ofBurst [] [] RxEnd.closed)) ∧
    Envelope.type stfWire { id_ := some 1, type_ := some 1, message_ := some [] } ≠
      stfWire.GET_DISPLAY ∧
    (Socket.ofBurst [6, 8, 1, 16, 1, 26, 0] [] RxEnd.closed).select =
      (1, Socket.ofBurst [6, 8, 1, 16, 1, 26, 0] [] RxEnd.closed) ∧
    process_message stfWire { id_ := some 1, type_ := some 1, message_ := some [] } =
      Envelope.new ∧
    (process_message stfWire
      { id_ := some 1, type_ := some 1, message_ := some [] }).ByteSize = 0 ∧
    receive_data stfWire (Socket.ofBurst [6, 8, 1, 16, 1, 26, 0] [] RxEnd.closed) =
      (1, (FileInputStream.new (Socket.ofBurst [] [] RxEnd.closed)).file) ∧
    (FileInputStream.new (Socket.ofBurst [] [] RxEnd.closed)).file.sent =
      (Socket.ofBurst [6, 8, 1, 16, 1, 26, 0] [] RxEnd.closed).sent ∧
    manage_connexion_loop stfWire (1 + 1)
        (Socket.ofBurst [6, 8, 1, 16, 1, 26, 0] [] RxEnd.closed) =
      manage_connexion_loop stfWire 1
        (FileInputStream.new (Socket.ofBurst [] [] RxEnd.closed)).file :=
  have t := receive_data_unknown_type stfWire
    (Socket.ofBurst [6, 8, 1, 16, 1, 26, 0] [] RxEnd.closed)
    (Socket.ofBurst [6, 8, 1, 16, 1, 26, 0] [] RxEnd.closed) 1 1
    { id_ := some 1, type_ := some 1, message_ := some [] }
    (FileInputStream.new (Socket.ofBurst [] [] RxEnd.closed))
    (by decide) (by decide) (by decide)
  ⟨by decide, by decide, by decide, by decide, t.1, t.2.1, t.2.2.1, t.2.2.2.1,
    t.2.2.2.2 (by decide) (by decide)⟩

/-- C4 fails on the code. The peer sends the length prefix 10, then the six bytes of a
complete display query (id 1, empty payload), then closes. The prefix decodes to 10,
only six bytes follow before the end of the stream, and `recv_message` returns `true`
with the six-byte envelope: the end of the stream on a field boundary counts as a
legitimate end of message. -/
theorem recv_message_accepts_truncated_frame :
    ((CodedInputStream.ofStream (FileInputStream.new
      (Socket.ofBurst [10, 8, 1, 16, 19, 26, 0] [] RxEnd.closed))).ReadVarint32).1 = some 10 ∧
    ((CodedInputStream.ofStream (FileInputStream.new
      (Socket.ofBurst [10, 8, 1, 16, 19, 26, 0] [] RxEnd.closed))).ReadVarint32).2.stream.length
      = 6 ∧
    (recv_message stfWire
      (FileInputStream.new (Socket.ofBurst [10, 8, 1, 16, 19, 26, 0] [] RxEnd.closed))
      Envelope.new).1 = true ∧
    (recv_message stfWire
      (FileInputStream.new (Socket.ofBurst [10, 8, 1, 16, 19, 26, 0] [] RxEnd.closed))
      Envelope.new).2.1 = { id_ := some 1, type_ := some 19, message_ := some [] } := by
  decide

/-- C9 fails on the code. Two well-formed display queries (ids 1 and 2) arrive in one
burst and the peer closes. Each has a non-empty response, yet `manage_connexion` sends
the response to the first only: the `FileInputStream` that `receive_data` allocates for
the first frame reads the whole burst and is never used again, so the bytes of the
second request are taken off the socket without being decoded. When the same two
queries arrive in two bursts both are answered. -/
theorem pipelined_request_lost :
    (manage_connexion stfWire
      (Socket.ofBurst [6, 8, 1, 16, 19, 26, 0, 6, 8, 2, 16, 19, 26, 0] [] RxEnd.closed)).sent =
      (send_message (process_message stfWire
        { id_ := some 1, type_ := some 19, message_ := some [] })
        FileOutputStream.new).buffer ∧
    (process_message stfWire
      { id_ := some 2, type_ := some 19, message_ := some [] }).ByteSize > 0 ∧
    (manage_connexion stfWire
      (Socket.ofBurst [6, 8, 1, 16, 19, 26, 0, 6, 8, 2, 16, 19, 26, 0] [] RxEnd.closed)).stream
      = [] ∧
    (manage_connexion stfWire
      (Socket.ofBurst [6, 8, 1, 16, 19, 26, 0] [⟨6, [8, 2, 16, 19, 26, 0]⟩] RxEnd.closed)).sent =
      (send_message (process_message stfWire
        { id_ := some 1, type_ := some 19, message_ := some [] })
        FileOutputStream.new).buffer ++
      (send_message (process_message stfWire
        { id_ := some 2, type_ := some 19, message_ := some [] })
        FileOutputStream.new).buffer := by
  decide

theorem lastStep_cons (prev : Option Event) (x : Event) (pre : List Event) :
    lastStep prev (x :: pre) = lastStep (some x) pre := by
  cases pre with
  | nil => rfl
  | cons y ys =>
    have hne : (y :: ys).getLast? = some ((y :: ys).getLast (by simp)) :=
      List.getLast?_eq_getLast _ _
    simp only [lastStep, List.getLast?_cons_cons, hne]

theorem openConnections_cons (x : Event) (l : List Event) :
    openConnections (x :: l) = openConnections [x] + openConnections l := by
  cases x with
  | accept r => cases r <;> simp [openConnections]
  | manage_call h => simp [openConnections]
  | manage_return h => simp [openConnections]

/-- In a chained trace each step is allowed after the one before it. -/
theorem chained_split (W : WireSchema) : ∀ (pre : List Event) (prev : Option Event)
    (e : Event) (post : List Event), chained W prev (pre ++ e :: post) = true →
    allowedAfter W (lastStep prev pre) e = true := by
  intro pre
  induction pre with
  | nil =>
    intro prev e post h
    simp only [List.nil_append, chained, Bool.and_eq_true] at h
    exact h.1
  | cons x xs ih =>
    intro prev e post h
    simp only [List.cons_append, chained, Bool.and_eq_true] at h
    rw [lastStep_cons]
    exact ih (some x) e post h.2

/-- In a chained trace the number of open Connections after any prefix is the one its
last step leaves. -/
theorem chained_open (W : WireSchema) : ∀ (pre : List Event) (prev : Option Event)
    (post : List Event), chained W prev (pre ++ post) = true →
    openAfter prev + openConnections pre = openAfter (lastStep prev pre) := by
  intro pre
  induction pre with
  | nil =>
    intro prev post _
    simp [openConnections, lastStep]
  | cons x xs ih =>
    intro prev post h
    simp only [List.cons_append, chained, Bool.and_eq_true] at h
    have hx := ih (some x) post h.2
    rw [lastStep_cons, ← hx, openConnections_cons x xs]
    have hstep : openAfter prev + openConnections [x] = openAfter (some x) := by
      have ha := h.1
      cases prev with
      | none =>
        cases x with
        | accept r => cases r <;> simp [openAfter, openConnections]
        | manage_call h => simp [allowedAfter] at ha
        | manage_return h => simp [allowedAfter] at ha
      | some p =>
        cases p with
        | accept r =>
          cases r with
          | none =>
            cases x with
            | accept r => cases r <;> simp [openAfter, openConnections]
            | manage_call h => simp [allowedAfter] at ha
            | manage_return h => simp [allowedAfter] at ha
          | some s =>
            cases x with
            | accept r => simp [allowedAfter] at ha
            | manage_call h => simp [openAfter, openConnections]
            | manage_return h => simp [allowedAfter] at ha
        | manage_call s =>
          cases x with
          | accept r => simp [allowedAfter] at ha
          | manage_call h => simp [allowedAfter] at ha
          | manage_return h => simp [openAfter, openConnections]
        | manage_return s =>
          cases x with
          | accept r => cases r <;> simp [openAfter, openConnections]
          | manage_call h => simp [allowedAfter] at ha
          | manage_return h => simp [allowedAfter] at ha
    omega

theorem openAfter_of_accept (W : WireSchema) (prev : Option Event) (e : Event)
    (h : allowedAfter W prev e = true) (he : e.isAccept = true) : openAfter prev = 0 := by
  cases e with
  | accept r =>
    cases prev with
    | none => rfl
    | some p =>
      cases p with
      | accept r1 =>
        cases r1 with
        | none => rfl
        | some s => simp [allowedAfter] at h
      | manage_call s => simp [allowedAfter] at h
      | manage_return s => rfl
  | manage_call h1 => simp [Event.isAccept] at he
  | manage_return h1 => simp [Event.isAccept] at he

theorem openAfter_range (o : Option Event) : 0 ≤ openAfter o ∧ openAfter o ≤ 1 := by
  cases o with
  | none => simp [openAfter]
  | some p =>
    cases p with
    | accept r => cases r <;> simp [openAfter]
    | manage_call s => simp [openAfter]
    | manage_return s => simp [openAfter]

theorem accept_loop_chained (W : WireSchema) : ∀ (accepts : List (Option Socket))
    (prev : Option Event), (∀ r, allowedAfter W prev (Event.accept r) = true) →
    chained W prev (accept_loop W accepts) = true := by
  intro accepts
  induction accepts with
  | nil => intro prev _; rfl
  | cons a rest ih =>
    intro prev hall
    cases a with
    | none =>
      have := ih (some (Event.accept none)) (fun _ => rfl)
      simp only [accept_loop, chained, hall, this, Bool.and_self]
    | some client_sock =>
      have := ih (some (Event.manage_return (manage_connexion W client_sock)))
        (fun _ => rfl)
      have h1 := hall (some client_sock)
      have h2 : allowedAfter W (some (Event.accept (some client_sock)))
          (Event.manage_call client_sock) = true := by simp [allowedAfter]
      have h3 : allowedAfter W (some (Event.manage_call client_sock))
          (Event.manage_return (manage_connexion W client_sock)) = true := by
        simp [allowedAfter]
      simp only [accept_loop, chained, h1, h2, h3, this, Bool.and_self]

theorem accept_loop_acceptResults (W : WireSchema) (accepts : List (Option Socket)) :
    acceptResults (accept_loop W accepts) = accepts := by
  induction accepts with
  | nil => rfl
  | cons a rest ih =>
    unfold acceptResults at ih ⊢
    cases a with
    | none => simp [accept_loop, Event.acceptResult, ih]
    | some client_sock => simp [accept_loop, Event.acceptResult, ih]

theorem accept_loop_open (W : WireSchema) (accepts : List (Option Socket)) :
    openConnections (accept_loop W accepts) = 0 := by
  induction accepts with
  | nil => rfl
  | cons a rest ih =>
    cases a with
    | none => simp [accept_loop, openConnections, ih]
    | some client_sock => simp [accept_loop, openConnections, ih]

theorem accept_loop_append (W : WireSchema) (accepts more : List (Option Socket)) :
    accept_loop W (accepts ++ more) = accept_loop W accepts ++ accept_loop W more := by
  induction accepts with
  | nil => rfl
  | cons a rest ih =>
    cases a with
    | none => simp [accept_loop, ih]
    | some client_sock => simp [accept_loop, ih]

/-- C10 (single-connection invariant). When `create_socket` and `listen` succeed,
`main` does not exit and, whatever the outcomes of its successive `accept` calls: it
issues one `accept` per outcome, in order; every accepted connection has been run to
`CLOSED` when the next outcome is asked for, and the step that then follows everything
done so far is the `accept` with that next outcome (the loop always comes back to
`accept`); and at every step `e` of what it does, after the steps `pre`: the step is the
Listener's order allows (first an accept; after a failed accept another accept; after
a successful accept the hand-off of that very connection; after the hand-off the return
of `manage_connexion` on it; after the return an accept), at most one Connection exists,
counted from its accept to the return of `manage_connexion`, and an `accept` is issued
only while none exists. -/
theorem main_single_connection (W : WireSchema) (agent_sock listening : Int)
    (accepts : List (Option Socket)) (next : Option Socket) (pre : List Event) (e : Event)
    (post : List Event) (hs : agent_sock ≠ -1) (hl : listening ≠ -1) :
    (main W agent_sock listening accepts).1 = none ∧
    acceptResults (main W agent_sock listening accepts).2 = accepts ∧
    openConnections (main W agent_sock listening accepts).2 = 0 ∧
    (main W agent_sock listening (accepts ++ [next])).2.take
      (main W agent_sock listening accepts).2.length =
      (main W agent_sock listening accepts).2 ∧
    ((main W agent_sock listening (accepts ++ [next])).2.drop
      (main W agent_sock listening accepts).2.length).head? = some (Event.accept next) ∧
    ((main W agent_sock listening accepts).2 = pre ++ e :: post →
      allowedAfter W pre.getLast? e = true ∧
      0 ≤ openConnections (pre ++ [e]) ∧ openConnections (pre ++ [e]) ≤ 1 ∧
      (e.isAccept = true → openConnections pre = 0)) := by
  have hmain : ∀ l, main W agent_sock listening l = (none, accept_loop W l) := by
    intro l
    unfold main
    rw [if_neg hs, if_neg hl]
  rw [hmain, hmain]
  have hnext : accept_loop W (accepts ++ [next]) =
      accept_loop W accepts ++ Event.accept next :: (accept_loop W [next]).tail := by
    rw [accept_loop_append]
    cases next <;> rfl
  refine ⟨rfl, accept_loop_acceptResults W accepts, accept_loop_open W accepts, ?_, ?_, ?_⟩
  · simp only [hnext]
    exact List.take_left _ _
  · simp only [hnext]
    rw [List.drop_left]
    rfl
  intro hsplit
  simp only at hsplit
  have hch := accept_loop_chained W accepts none (fun _ => rfl)
  rw [hsplit] at hch
  have hallowed := chained_split W pre none e post hch
  have hlast : lastStep none pre = pre.getLast? := by
    unfold lastStep
    cases pre.getLast? <;> rfl
  rw [hlast] at hallowed
  have hpre := chained_open W pre none (e :: post) hch
  have hch2 : chained W none ((pre ++ [e]) ++ post) = true := by
    simpa using hch
  have hpe := chained_open W (pre ++ [e]) none post hch2
  rw [hlast] at hpre
  have hr := openAfter_range (lastStep none (pre ++ [e]))
  have h0 : openAfter none = 0 := rfl
  refine ⟨hallowed, by omega, by omega, fun he => ?_⟩
  have := openAfter_of_accept W pre.getLast? e hallowed he
  omega

/-- Witness of `main_single_connection`: a peer that sends one display query and closes,
then a failed `accept`, then a further failed `accept` as the next outcome; the step
examined is the second `accept`, issued right after `manage_connexion` has returned. -/
theorem main_single_connection_witness :
    (1 : Int) ≠ -1 ∧ (0 : Int) ≠ -1 ∧
    (main stfWire 1 0 [some (Socket.ofBurst [6, 8, 1, 16, 19, 26, 0] [] RxEnd.closed), none]).2 =
      [Event.accept (some (Socket.ofBurst [6, 8, 1, 16, 19, 26, 0] [] RxEnd.closed)),
       Event.manage_call (Socket.ofBurst [6, 8, 1, 16, 19, 26, 0] [] RxEnd.closed),
       Event.manage_return (manage_connexion stfWire
         (Socket.ofBurst [6, 8, 1, 16, 19, 26, 0] [] RxEnd.closed))] ++
      Event.accept none :: [] ∧
    (main stfWire 1 0 [some (Socket.ofBurst [6, 8, 1, 16, 19, 26, 0] [] RxEnd.closed), none]).1 = none ∧
    acceptResults (main stfWire 1 0 [some (Socket.ofBurst [6, 8, 1, 16, 19, 26, 0] [] RxEnd.closed), none]).2 =
      [some (Socket.ofBurst [6, 8, 1, 16, 19, 26, 0] [] RxEnd.closed), none] ∧
    openConnections (main stfWire 1 0 [some (Socket.ofBurst [6, 8, 1, 16, 19, 26, 0] [] RxEnd.closed), none]).2 = 0 ∧
    (main stfWire 1 0 ([some (Socket.ofBurst [6, 8, 1, 16, 19, 26, 0] [] RxEnd.closed), none] ++ [none])).2.take
      (main stfWire 1 0 [some (Socket.ofBurst [6, 8, 1, 16, 19, 26, 0] [] RxEnd.closed), none]).2.length =
      (main stfWire 1 0 [some (Socket.ofBurst [6, 8, 1, 16, 19, 26, 0] [] RxEnd.closed), none]).2 ∧
    ((main stfWire 1 0 ([some (Socket.ofBurst [6, 8, 1, 16, 19, 26, 0] [] RxEnd.closed), none] ++ [none])).2.drop
      (main stfWire 1 0 [some (Socket.ofBurst [6, 8, 1, 16, 19, 26, 0] [] RxEnd.closed), none]).2.length).head? = some (Event.accept none) ∧
    allowedAfter stfWire
      [Event.accept (some (Socket.ofBurst [6, 8, 1, 16, 19, 26, 0] [] RxEnd.closed)),
       Event.manage_call (Socket.ofBurst [6, 8, 1, 16, 19, 26, 0] [] RxEnd.closed),
       Event.manage_return (manage_connexion stfWire
         (Socket.ofBurst [6, 8, 1, 16, 19, 26, 0] [] RxEnd.closed))].getLast?
      (Event.accept none) = true ∧
    0 ≤ openConnections
      ([Event.accept (some (Socket.ofBurst [6, 8, 1, 16, 19, 26, 0] [] RxEnd.closed)),
       Event.manage_call (Socket.ofBurst [6, 8, 1, 16, 19, 26, 0] [] RxEnd.closed),
       Event.manage_return (manage_connexion stfWire
         (Socket.ofBurst [6, 8, 1, 16, 19, 26, 0] [] RxEnd.closed))] ++
        [Event.accept none]) ∧
    openConnections
      ([Event.accept (some (Socket.ofBurst [6, 8, 1, 16, 19, 26, 0] [] RxEnd.closed)),
       Event.manage_call (Socket.ofBurst [6, 8, 1, 16, 19, 26, 0] [] RxEnd.closed),
       Event.manage_return (manage_connexion stfWire
         (Socket.ofBurst [6, 8, 1, 16, 19, 26, 0] [] RxEnd.closed))] ++
        [Event.accept none]) ≤ 1 ∧
    openConnections
      [Event.accept (some (Socket.ofBurst [6, 8, 1, 16, 19, 26, 0] [] RxEnd.closed)),
       Event.manage_call (Socket.ofBurst [6, 8, 1, 16, 19, 26, 0] [] RxEnd.closed),
       Event.manage_return (manage_connexion stfWire
         (Socket.ofBurst [6, 8, 1, 16, 19, 26, 0] [] RxEnd.closed))] = 0 :=
  have t := main_single_connection stfWire 1 0
    [some (Socket.ofBurst [6, 8, 1, 16, 19, 26, 0] [] RxEnd.closed), none] none
    [Event.accept (some (Socket.ofBurst [6, 8, 1, 16, 19, 26, 0] [] RxEnd.closed)),
       Event.manage_call (Socket.ofBurst [6, 8, 1, 16, 19, 26, 0] [] RxEnd.closed),
       Event.manage_return (manage_connexion stfWire
         (Socket.ofBurst [6, 8, 1, 16, 19, 26, 0] [] RxEnd.closed))]
    (Event.accept none) [] (by decide) (by decide)
  have u := t.2.2.2.2.2 rfl
  ⟨by decide, by decide, rfl, t.1, t.2.1, t.2.2.1, t.2.2.2.1, t.2.2.2.2.1,
    u.1, u.2.1, u.2.2.1, u.2.2.2 rfl⟩

end STFAgent
